import Mathlib

/-!
Shallow embedding of the fuzzy trie autocomplete system
(`fuzzy-matcher.js`, `enhanced-trie.js`, `script.js`) and proofs of the
specification claims about it.

JavaScript strings are modelled as `List Char`; JavaScript numbers that the
code only ever uses as non-negative integers (frequencies, timestamps,
lengths, edit distances, limits) are modelled as `Nat`.  `Date.now()` is
modelled by an explicit `now : Nat` argument on the mutating operations.
-/

/-- JavaScript strings, modelled as lists of characters. -/
abbrev Str := List Char

/-- ASCII whitespace stripped by JavaScript `String.prototype.trim`
(space, tab, line feed, vertical tab, form feed, carriage return).
The model is faithful on the ASCII range the repository works with. -/
def isJsSpace (c : Char) : Bool :=
  c = ' ' || c = '\t' || c = '\n' || c = '\r' || c.toNat = 11 || c.toNat = 12

/-- Model of `s.trim()`: strip leading and trailing whitespace. -/
def trimJs (s : Str) : Str :=
  ((s.dropWhile isJsSpace).reverse.dropWhile isJsSpace).reverse

/-- Model of `s.toLowerCase()`, faithful on the ASCII range: uppercase
letters are mapped to lowercase, all other characters are unchanged. -/
def toLowerStr (s : Str) : Str := s.map Char.toLower

/-! ## Reference Levenshtein distance

`lev` is the textbook unit-cost Levenshtein distance, used to state the
metric and variation-superset claims; it is proved below to coincide with
the dynamic-programming implementation `levenshteinDistance` embedded from
`fuzzy-matcher.js`. -/

/-- Reference Levenshtein distance with unit costs for insertion, deletion
and substitution. -/
def lev : Str → Str → Nat
  | [], b => b.length
  | _ :: a, [] => a.length + 1
  | x :: a, y :: b =>
      if x = y then lev a b
      else 1 + min (lev a (y :: b)) (min (lev (x :: a) b) (lev a b))
termination_by a b => a.length + b.length
decreasing_by all_goals simp_arith

/-- One primitive edit over the character collection `A`: deletion of one
character at any position, substitution of one character by a character of
`A`, or insertion of a character of `A` at any position. -/
inductive OneEditA (A : Str) : Str → Str → Prop
  | del (p q : Str) (x : Char) : OneEditA A (p ++ x :: q) (p ++ q)
  | sub (p q : Str) (x y : Char) (hy : y ∈ A) :
      OneEditA A (p ++ x :: q) (p ++ y :: q)
  | ins (p q : Str) (y : Char) (hy : y ∈ A) : OneEditA A (p ++ q) (p ++ y :: q)

/-- A chain of `n` primitive edits over the character collection `A`. -/
inductive EditChain (A : Str) : Nat → Str → Str → Prop
  | refl (a : Str) : EditChain A 0 a a
  | step {a b c : Str} {n : Nat} :
      OneEditA A a b → EditChain A n b c → EditChain A (n + 1) a c

/-! ## The source's dynamic-programming distance (`fuzzy-matcher.js`)

`FuzzyMatcher.levenshteinDistance` fills a `(m+1) × (n+1)` matrix with
`dp[i][0] = i`, `dp[0][j] = j` and
`dp[i][j] = Math.min(dp[i-1][j] + 1, dp[i][j-1] + 1, dp[i-1][j-1] + cost)`
where `cost` is `0` iff `s1[i-1] === s2[j-1]`.  The embedding `dpFun`
represents row `i` of that matrix as a function of the column index and
builds each row from the previous one with literally that recurrence. -/

/-- Row `i+1` of the DP table of `levenshteinDistance`, built from row `i`
(`prev`) by the source's recurrence; `dpNext s1 s2 i prev j = dp[i+1][j]`. -/
def dpNext (s1 s2 : Str) (i : Nat) (prev : Nat → Nat) : Nat → Nat
  | 0 => i + 1
  | j + 1 =>
      min (prev (j + 1) + 1)
        (min (dpNext s1 s2 i prev j + 1)
          (prev j + (if s1.getD i ' ' = s2.getD j ' ' then 0 else 1)))

/-- The DP table of `levenshteinDistance`: `dpFun s1 s2 i j = dp[i][j]`. -/
def dpFun (s1 s2 : Str) : Nat → Nat → Nat
  | 0 => fun j => j
  | i + 1 => dpNext s1 s2 i (dpFun s1 s2 i)

/-- `FuzzyMatcher.levenshteinDistance` from `fuzzy-matcher.js`: the early
returns for identical strings and for an empty argument, then the DP table
entry `dp[m][n]`. -/
def levenshteinDistance (s1 s2 : Str) : Nat :=
  if s1 = s2 then 0
  else if s1 = [] then s2.length
  else if s2 = [] then s1.length
  else dpFun s1 s2 s1.length s2.length

/-! ## The variation generator (`fuzzy-matcher.js`) -/

/-- The fixed alphabet `'abcdefghijklmnopqrstuvwxyz0123456789 '` used by
`FuzzyMatcher.addEdits` for replacements and insertions. -/
def alphabetChars : Str := "abcdefghijklmnopqrstuvwxyz0123456789 ".toList

/-- `FuzzyMatcher.addEdits`: all strings obtained from `w` by one deletion,
one adjacent transposition, one replacement by an alphabet character, or
one insertion of an alphabet character (in the source's generation order).
The source adds them to a `Set`; the model returns the list of added
strings, and all claims about it are membership claims. -/
def addEdits (w : Str) : List Str :=
  ((List.range w.length).map fun i => w.take i ++ w.drop (i + 1))
    ++ ((List.range (w.length - 1)).map fun i =>
          w.take i ++ [w.getD (i + 1) ' ', w.getD i ' '] ++ w.drop (i + 2))
    ++ ((List.range w.length).flatMap fun i =>
          alphabetChars.map fun c => w.take i ++ c :: w.drop (i + 1))
    ++ ((List.range (w.length + 1)).flatMap fun i =>
          alphabetChars.map fun c => w.take i ++ c :: w.drop i)

/-- One round of the `getVariations` loop: the snapshot of the current set
together with every one-edit variation of each of its members. -/
def varStep (vs : List Str) : List Str := vs ++ vs.flatMap addEdits

/-- `maxDistance` rounds of the `getVariations` loop. -/
def varRounds : Nat → List Str → List Str
  | 0, vs => vs
  | k + 1, vs => varRounds k (varStep vs)

/-- `FuzzyMatcher` state: the configured maximum edit distance. -/
structure FuzzyMatcher where
  maxDistance : Nat
deriving DecidableEq, Repr

/-- `FuzzyMatcher.getVariations`: starts from `{word}`; returns early if the
word is empty or `maxDistance <= 0`, otherwise performs `maxDistance`
rounds, each adding every one-edit variation of every string in the
round's snapshot. -/
def FuzzyMatcher.getVariations (fm : FuzzyMatcher) (word : Str) : List Str :=
  if word = [] ∨ fm.maxDistance = 0 then [word]
  else varRounds fm.maxDistance [word]

/-- `FuzzyMatcher.findBestMatchingVariation`: scans the variations of
`query` (skipping `query` itself, which seeds the fold) and keeps the
variation whose lowercased Levenshtein distance to the lowercased `text`
is strictly smallest; returns that variation with its distance. -/
def findBestMatchingVariation (fm : FuzzyMatcher) (query text : Str) :
    Str × Nat :=
  (fm.getVariations query).foldl
    (fun best v =>
      if v = query then best
      else
        let d := levenshteinDistance (toLowerStr v) (toLowerStr text)
        if d < best.2 then (v, d) else best)
    (query, levenshteinDistance (toLowerStr query) (toLowerStr text))

/-! ## The trie (`enhanced-trie.js`) -/

/-- A suggestion record pushed by `EnhancedTrie.findAllWords`:
`{ text, frequency, lastUsed }` copied from a terminal node. -/
structure Suggestion where
  text : Str
  frequency : Nat
  lastUsed : Nat
deriving DecidableEq, Repr

/-- `TrieNode` from `enhanced-trie.js`: `children` is the JavaScript object
mapping single characters to child nodes, modelled as an association list
in insertion order. -/
inductive TrieNode : Type where
  | mk (children : List (Char × TrieNode)) (isEndOfWord : Bool)
      (fullSentence : Str) (frequency : Nat) (lastUsed : Nat)

/-- A freshly constructed `TrieNode`. -/
def TrieNode.emptyNode : TrieNode := .mk [] false [] 0 0

/-- The `children` field of a node. -/
def TrieNode.children : TrieNode → List (Char × TrieNode)
  | .mk c _ _ _ _ => c

/-- The `isEndOfWord` field of a node. -/
def TrieNode.isEndOfWord : TrieNode → Bool
  | .mk _ e _ _ _ => e

/-- The `fullSentence` field of a node. -/
def TrieNode.fullSentence : TrieNode → Str
  | .mk _ _ s _ _ => s

/-- The `frequency` field of a node. -/
def TrieNode.frequency : TrieNode → Nat
  | .mk _ _ _ f _ => f

/-- The `lastUsed` field of a node. -/
def TrieNode.lastUsed : TrieNode → Nat
  | .mk _ _ _ _ l => l

/-- The scalar fields of a node (everything except `children`), used to
state that an operation changes no node's observable data. -/
def TrieNode.fields (nd : TrieNode) : Bool × Str × Nat × Nat :=
  (nd.isEndOfWord, nd.fullSentence, nd.frequency, nd.lastUsed)

/-- Property read `node.children[char]`: the first binding of `char` in the
children object, if any. -/
def getChild : List (Char × TrieNode) → Char → Option TrieNode
  | [], _ => none
  | (d, nd) :: rest, c => if d = c then some nd else getChild rest c

/-- Property write `node.children[char] = nd`: replace the binding of
`char` if present, otherwise append it (JavaScript object insertion
order). -/
def setChild : List (Char × TrieNode) → Char → TrieNode → List (Char × TrieNode)
  | [], c, nd => [(c, nd)]
  | (d, m) :: rest, c, nd =>
      if d = c then (c, nd) :: rest else (d, m) :: setChild rest c nd

/-- The character-by-character walk of `EnhancedTrie.insert`: follow `key`,
creating missing children, and at the end set `isEndOfWord`, overwrite
`fullSentence` with the trimmed original, increment `frequency` and
refresh `lastUsed`. -/
def insertGo (nd : TrieNode) : Str → Str → Nat → TrieNode
  | [], text, now =>
      .mk nd.children true text (nd.frequency + 1) now
  | c :: key, text, now =>
      let child := (getChild nd.children c).getD TrieNode.emptyNode
      .mk (setChild nd.children c (insertGo child key text now))
        nd.isEndOfWord nd.fullSentence nd.frequency nd.lastUsed

/-- The character-by-character walk shared by `EnhancedTrie.autocomplete`
and `EnhancedTrie.recordSelection`: follow the key, `none` as soon as a
character is missing. -/
def followPath : TrieNode → Str → Option TrieNode
  | nd, [] => some nd
  | nd, c :: key =>
      match getChild nd.children c with
      | none => none
      | some child => followPath child key

mutual

/-- `EnhancedTrie.findAllWords`: collect a `Suggestion` for this node if it
is terminal, then recurse into every child in order.  The source
accumulates into a `results` array; the model returns the accumulated
list. -/
def TrieNode.findAllWords : TrieNode → List Suggestion
  | .mk children isEnd text freq lu =>
      (if isEnd then [⟨text, freq, lu⟩] else []) ++ findAllWordsList children

/-- Collection of `findAllWords` over a children list, child by child. -/
def findAllWordsList : List (Char × TrieNode) → List Suggestion
  | [] => []
  | (_, child) :: rest => child.findAllWords ++ findAllWordsList rest

end

mutual

/-- `EnhancedTrie.countNodes`: the number of terminal nodes in the subtree
(the source accumulates into `count.value`). -/
def TrieNode.countNodes : TrieNode → Nat
  | .mk children isEnd _ _ _ =>
      (if isEnd then 1 else 0) + countNodesList children

/-- `countNodes` summed over a children list. -/
def countNodesList : List (Char × TrieNode) → Nat
  | [] => 0
  | (_, child) :: rest => child.countNodes + countNodesList rest

end

mutual

/-- `EnhancedTrie.countTotalNodesHelper`: the number of nodes in the
subtree, the node itself included. -/
def TrieNode.countTotal : TrieNode → Nat
  | .mk children _ _ _ _ => 1 + countTotalList children

/-- `countTotal` summed over a children list. -/
def countTotalList : List (Char × TrieNode) → Nat
  | [] => 0
  | (_, child) :: rest => child.countTotal + countTotalList rest

end

/-- Stable insertion of `x` into `l`, placing `x` before the first element
`y` with `before x y`. -/
def jsInsert {α : Type} (before : α → α → Bool) (x : α) : List α → List α
  | [] => [x]
  | y :: l => if before x y then x :: y :: l else y :: jsInsert before x l

/-- Model of ECMAScript stable `Array.prototype.sort(cmp)` as a stable
insertion sort, where `before x y` means `cmp(x, y) < 0`. -/
def jsSortBy {α : Type} (before : α → α → Bool) (l : List α) : List α :=
  l.foldl (fun acc x => jsInsert before x acc) []

/-- The comparator of `EnhancedTrie.rankSuggestions`:
`b.frequency - a.frequency`, and on a tie `b.lastUsed - a.lastUsed`;
`rankBefore a b` is true iff the comparator is negative. -/
def rankBefore (a b : Suggestion) : Bool :=
  if a.frequency ≠ b.frequency then decide (b.frequency < a.frequency)
  else decide (b.lastUsed < a.lastUsed)

/-- `EnhancedTrie.rankSuggestions`: sort by frequency (descending) then
recency (descending), truncate to `limit`, and keep just the texts. -/
def rankSuggestions (suggestions : List Suggestion) (limit : Nat) : List Str :=
  ((jsSortBy rankBefore suggestions).take limit).map Suggestion.text

/-- `EnhancedTrie` state: the root node and the `totalInsertions`
counter. -/
structure EnhancedTrie where
  root : TrieNode
  totalInsertions : Nat

/-- A freshly constructed `EnhancedTrie`. -/
def EnhancedTrie.emptyTrie : EnhancedTrie := ⟨TrieNode.emptyNode, 0⟩

/-- `EnhancedTrie.processSentence`: lowercase, preserving spaces. -/
def EnhancedTrie.processSentence (s : Str) : Str := toLowerStr s

/-- `EnhancedTrie.insert`: return unchanged on an empty sentence, otherwise
walk/create the path of the processed sentence, update the final node and
increment `totalInsertions`. -/
def EnhancedTrie.insert (t : EnhancedTrie) (s : Str) (now : Nat) : EnhancedTrie :=
  if s = [] then t
  else
    ⟨insertGo t.root (EnhancedTrie.processSentence s) (trimJs s) now,
      t.totalInsertions + 1⟩

/-- The prefix walk of `EnhancedTrie.autocomplete`: process the prefix and
follow it from the root. -/
def EnhancedTrie.navigate (t : EnhancedTrie) (pfx : Str) : Option TrieNode :=
  followPath t.root (EnhancedTrie.processSentence pfx)

/-- `EnhancedTrie.autocomplete`: empty list for an empty prefix or a failed
walk, otherwise the ranked and truncated suggestions collected below the
prefix node.  The source's default for `limit` is `10`
(`autocompleteDefault`). -/
def EnhancedTrie.autocomplete (t : EnhancedTrie) (pfx : Str) (limit : Nat) :
    List Str :=
  if pfx = [] then []
  else
    match t.navigate pfx with
    | none => []
    | some nd => rankSuggestions nd.findAllWords limit

/-- `EnhancedTrie.autocomplete` with its default `limit = 10`. -/
def EnhancedTrie.autocompleteDefault (t : EnhancedTrie) (pfx : Str) : List Str :=
  t.autocomplete pfx 10

/-- The walk of `EnhancedTrie.recordSelection`: follow the processed
sentence; if the walk completes at a terminal node whose `fullSentence`
equals the given sentence exactly, increment its frequency and refresh its
recency; otherwise change nothing. -/
def recSelGo (nd : TrieNode) : Str → Str → Nat → TrieNode
  | [], s, now =>
      if nd.isEndOfWord && nd.fullSentence = s then
        .mk nd.children nd.isEndOfWord nd.fullSentence (nd.frequency + 1) now
      else nd
  | c :: key, s, now =>
      match getChild nd.children c with
      | none => nd
      | some child => .mk (setChild nd.children c (recSelGo child key s now))
          nd.isEndOfWord nd.fullSentence nd.frequency nd.lastUsed

/-- `EnhancedTrie.recordSelection`: return unchanged on an empty sentence,
otherwise run the conditional-update walk. -/
def EnhancedTrie.recordSelection (t : EnhancedTrie) (s : Str) (now : Nat) :
    EnhancedTrie :=
  if s = [] then t
  else ⟨recSelGo t.root (EnhancedTrie.processSentence s) s now, t.totalInsertions⟩

/-- `EnhancedTrie` states reachable from a freshly constructed trie by any
sequence of `insert` and `recordSelection` calls. -/
inductive Reachable : EnhancedTrie → Prop
  | empty : Reachable EnhancedTrie.emptyTrie
  | insert {t : EnhancedTrie} (s : Str) (now : Nat) :
      Reachable t → Reachable (t.insert s now)
  | select {t : EnhancedTrie} (s : Str) (now : Nat) :
      Reachable t → Reachable (t.recordSelection s now)

/-! ## The orchestrator (`script.js`, `FuzzyTrieAutocomplete`) -/

/-- `FuzzyTrieAutocomplete` state: a `FuzzyMatcher` and an `EnhancedTrie`. -/
structure FuzzyTrieAutocomplete where
  fuzzyMatcher : FuzzyMatcher
  trie : EnhancedTrie

/-- Modelled from the spec: `this.trie.getFrequency(suggestion)` is called
by `FuzzyTrieAutocomplete.autocomplete` in `script.js`, but no
`getFrequency` method is defined anywhere in the repository.  Per the
spec, a candidate's `frequency` is "copied from the owning terminal node
at query time", so the model walks the normalized key of the text and
reads the reached terminal node's frequency, `0` when there is no such
node. -/
def EnhancedTrie.getFrequency (t : EnhancedTrie) (text : Str) : Nat :=
  match followPath t.root (EnhancedTrie.processSentence text) with
  | some nd => if nd.isEndOfWord then nd.frequency else 0
  | none => 0

/-- A per-variation suggestion of the orchestrator:
`{ text: suggestion, frequency, variation }`. -/
structure SugF where
  text : Str
  frequency : Nat
  variation : Str
deriving DecidableEq, Repr

/-- A ranked candidate of `rankMatchesWithInfo`: the suggestion spread
together with `matchInfo = { distance, matchedVariation }` (the `score`
field, `distance / max(query.length, text.length)`, is recomputed from
`distance` and the text length where it is compared). -/
structure RankedCand where
  text : Str
  frequency : Nat
  variation : Str
  distance : Nat
  matchedVariation : Str
deriving DecidableEq, Repr

/-- One step of the orchestrator's de-duplication by text: a `Map` keyed by
`text` where an entry is overwritten (in place) only when the new instance
has strictly higher frequency, and appended when the text is new. -/
def dedupInsert (acc : List SugF) (item : SugF) : List SugF :=
  if acc.any fun x => x.text = item.text then
    acc.map fun x =>
      if x.text = item.text ∧ x.frequency < item.frequency then item else x
  else acc ++ [item]

/-- The comparator of the score sort in `rankMatchesWithInfo`:
`a.score - b.score` with `score = distance / max(query.length,
text.length)`; the model compares the two quotients exactly by
cross-multiplication (the source compares IEEE doubles; for the claims
proved here the outcome of this tie-breaking sort is irrelevant). -/
def scoreBefore (qlen : Nat) (a b : RankedCand) : Bool :=
  decide (a.distance * max qlen b.text.length
    < b.distance * max qlen a.text.length)

/-- `FuzzyMatcher.rankMatchesWithInfo`: empty on an empty query or no
candidates; otherwise attach `findBestMatchingVariation` match info to
every candidate and stable-sort by score (lower is better). -/
def rankMatchesWithInfo (fm : FuzzyMatcher) (query : Str)
    (candidates : List SugF) : List RankedCand :=
  if query = [] ∨ candidates = [] then []
  else
    jsSortBy (scoreBefore query.length)
      (candidates.map fun c =>
        let mi := findBestMatchingVariation fm query c.text
        ⟨c.text, c.frequency, c.variation, mi.2, mi.1⟩)

/-- The comparator of the final sort of `FuzzyTrieAutocomplete.autocomplete`:
`b.frequency - a.frequency` (higher frequency first), and on a tie
`a.matchInfo.distance - b.matchInfo.distance` (lower distance first);
`finalBefore a b` is true iff the comparator is negative. -/
def finalBefore (a b : RankedCand) : Bool :=
  if a.frequency ≠ b.frequency then decide (b.frequency < a.frequency)
  else decide (a.distance < b.distance)

/-- `FuzzyTrieAutocomplete.insert`: delegate to the trie when the sentence
is non-empty and does not trim to the empty string; return whether the
sentence was actually inserted. -/
def FuzzyTrieAutocomplete.insert (st : FuzzyTrieAutocomplete) (s : Str)
    (now : Nat) : FuzzyTrieAutocomplete × Bool :=
  if s ≠ [] ∧ trimJs s ≠ [] then
    ({ st with trie := st.trie.insert s now }, true)
  else (st, false)

/-- `FuzzyTrieAutocomplete.autocomplete` from `script.js`: empty for an
empty query; otherwise probe the trie with every variation of the query,
tag each suggestion with its frequency and probe variation, de-duplicate
by text keeping the higher-frequency instance, attach match info and
score-rank, then sort by frequency (descending) and distance (ascending)
and truncate to `limit`.  The source's default for `limit` is `10`
(`autocompleteDefault`). -/
def FuzzyTrieAutocomplete.autocomplete (st : FuzzyTrieAutocomplete)
    (query : Str) (limit : Nat) : List RankedCand :=
  if query = [] then []
  else
    let variations := st.fuzzyMatcher.getVariations query
    let allSuggestions := variations.flatMap fun v =>
      (st.trie.autocomplete v limit).map fun s =>
        SugF.mk s (st.trie.getFrequency s) v
    let uniqueSuggestions := allSuggestions.foldl dedupInsert []
    let ranked := rankMatchesWithInfo st.fuzzyMatcher query uniqueSuggestions
    (jsSortBy finalBefore ranked).take limit

/-- `FuzzyTrieAutocomplete.autocomplete` with its default `limit = 10`. -/
def FuzzyTrieAutocomplete.autocompleteDefault (st : FuzzyTrieAutocomplete)
    (query : Str) : List RankedCand :=
  st.autocomplete query 10

/-- `FuzzyTrieAutocomplete.recordSelection`: delegate to the trie. -/
def FuzzyTrieAutocomplete.recordSelection (st : FuzzyTrieAutocomplete)
    (s : Str) (now : Nat) : FuzzyTrieAutocomplete :=
  { st with trie := st.trie.recordSelection s now }

/-! ## State-threaded rendering of autocomplete (frame property)

To state that autocomplete is read-only, the query pipeline is rendered a
second time in state-passing style: every step receives the trie state and
returns it alongside its result, mirroring statement order in the source.
The frame claim is that the returned state always equals the initial
one. -/

mutual

/-- State-threaded `findAllWords`. -/
def TrieNode.findAllWordsST : TrieNode → EnhancedTrie → List Suggestion × EnhancedTrie
  | .mk children isEnd text freq lu, st =>
      let rest := findAllWordsListST children st
      ((if isEnd then [⟨text, freq, lu⟩] else []) ++ rest.1, rest.2)

/-- State-threaded collection over a children list. -/
def findAllWordsListST : List (Char × TrieNode) → EnhancedTrie → List Suggestion × EnhancedTrie
  | [], st => ([], st)
  | (_, child) :: rest, st =>
      let r1 := child.findAllWordsST st
      let r2 := findAllWordsListST rest r1.2
      (r1.1 ++ r2.1, r2.2)

end

/-- State-threaded prefix walk. -/
def walkST : Str → TrieNode → EnhancedTrie → Option TrieNode × EnhancedTrie
  | [], nd, st => (some nd, st)
  | c :: key, nd, st =>
      match getChild nd.children c with
      | none => (none, st)
      | some child => walkST key child st

/-- State-threaded `EnhancedTrie.autocomplete`. -/
def EnhancedTrie.autocompleteST (t : EnhancedTrie) (pfx : Str) (limit : Nat) :
    List Str × EnhancedTrie :=
  if pfx = [] then ([], t)
  else
    let w := walkST (EnhancedTrie.processSentence pfx) t.root t
    match w.1 with
    | none => ([], w.2)
    | some nd =>
        let r := nd.findAllWordsST w.2
        (rankSuggestions r.1 limit, r.2)

/-- State-threaded `FuzzyTrieAutocomplete.autocomplete`: each variation's
trie probe receives the state left by the previous one. -/
def FuzzyTrieAutocomplete.autocompleteST (st : FuzzyTrieAutocomplete)
    (query : Str) (limit : Nat) : List RankedCand × FuzzyTrieAutocomplete :=
  if query = [] then ([], st)
  else
    let variations := st.fuzzyMatcher.getVariations query
    let collected := variations.foldl
      (fun (acc : List SugF × FuzzyTrieAutocomplete) v =>
        let r := acc.2.trie.autocompleteST v limit
        let st2 := { acc.2 with trie := r.2 }
        (acc.1 ++ r.1.map fun s => SugF.mk s (st2.trie.getFrequency s) v, st2))
      ([], st)
    let unique := collected.1.foldl dedupInsert []
    let ranked := rankMatchesWithInfo collected.2.fuzzyMatcher query unique
    ((jsSortBy finalBefore ranked).take limit, collected.2)

/-- `EnhancedTrie.countUniqueEntries`: the number of terminal nodes. -/
def EnhancedTrie.countUniqueEntries (t : EnhancedTrie) : Nat :=
  t.root.countNodes

/-- `EnhancedTrie.countTotalNodes`: the number of nodes of the trie. -/
def EnhancedTrie.countTotalNodes (t : EnhancedTrie) : Nat :=
  t.root.countTotal

/-- The node reached from `nd` along `key` by the walk of `insert`, which
substitutes a fresh node wherever a child is missing.  Used to describe
where `insertGo` puts its data. -/
def walkOrEmpty (nd : TrieNode) : Str → TrieNode
  | [] => nd
  | c :: key => walkOrEmpty ((getChild nd.children c).getD TrieNode.emptyNode) key

/-- A concrete trie used by the selection witnesses: "aB" inserted once. -/
def witnessTrieSel : EnhancedTrie := EnhancedTrie.emptyTrie.insert ['a', 'B'] 3

/-- The terminal node of `witnessTrieSel`. -/
def witnessNodeSel : TrieNode := .mk [] true ['a', 'B'] 1 3

/-- A concrete trie used by the witnesses: "ab" inserted five times and
"ac" inserted once. -/
def witnessTrie : EnhancedTrie :=
  (((((EnhancedTrie.emptyTrie.insert ['a', 'b'] 1).insert ['a', 'b'] 2).insert
    ['a', 'b'] 3).insert ['a', 'b'] 4).insert ['a', 'b'] 5).insert ['a', 'c'] 6

/-- A concrete orchestrator state over `witnessTrie`, with fuzzy matching
radius 0 to keep witness evaluation small. -/
def witnessState : FuzzyTrieAutocomplete := ⟨⟨0⟩, witnessTrie⟩

/-! # Theorems

## Basic facts about the reference distance `lev` -/

theorem lev_nil_left (b : Str) : lev [] b = b.length := by simp [lev]

theorem lev_nil_right (a : Str) : lev a [] = a.length := by
  cases a <;> simp [lev]

theorem lev_cons_cons (x y : Char) (a b : Str) :
    lev (x :: a) (y :: b) =
      if x = y then lev a b
      else 1 + min (lev a (y :: b)) (min (lev (x :: a) b) (lev a b)) := by
  simp [lev]

theorem lev_self (a : Str) : lev a a = 0 := by
  induction a with
  | nil => simp [lev]
  | cons x a ih => simp [lev_cons_cons, ih]

theorem lev_symm (a b : Str) : lev a b = lev b a := by
  induction a, b using lev.induct with
  | case1 b => cases b <;> simp [lev_nil_left, lev_nil_right, lev]
  | case2 x a => simp [lev_nil_left, lev_nil_right]
  | case3 a y b ih => simp [lev_cons_cons, ih]
  | case4 x a y b hxy ih1 ih2 ih3 =>
      rw [lev_cons_cons, lev_cons_cons, if_neg hxy, if_neg fun h => hxy h.symm,
        ih1, ih2, ih3, min_left_comm]

theorem min3_cases (X Y Z : Nat) :
    min X (min Y Z) = X ∨ min X (min Y Z) = Y ∨ min X (min Y Z) = Z := by
  rcases min_choice X (min Y Z) with h | h
  · exact Or.inl h
  · rcases min_choice Y Z with h2 | h2
    · exact Or.inr (Or.inl (h.trans h2))
    · exact Or.inr (Or.inr (h.trans h2))

theorem lev_head_bounds :
    ∀ n : Nat, ∀ a w : Str, a.length + w.length ≤ n →
      (∀ x : Char, lev (x :: a) w ≤ lev a w + 1) ∧
      (∀ y : Char, lev a w ≤ lev a (y :: w) + 1) := by
  intro n
  induction n with
  | zero =>
      intro a w h
      have ha : a = [] := by cases a <;> simp_all
      have hw : w = [] := by cases w <;> simp_all
      subst ha hw
      constructor
      · intro x; simp [lev_nil_right, lev_nil_left]
      · intro y; simp [lev_nil_left]
  | succ n ih =>
      intro a w h
      constructor
      · intro x
        cases w with
        | nil => simp [lev_nil_right]
        | cons y w =>
            rw [lev_cons_cons]
            by_cases hxy : x = y
            · rw [if_pos hxy]
              have := (ih a w (by simp at h; omega)).2 y
              omega
            · rw [if_neg hxy]
              have h1 : min (lev a (y :: w)) (min (lev (x :: a) w) (lev a w))
                  ≤ lev a (y :: w) := min_le_left _ _
              omega
      · intro y
        cases a with
        | nil => simp [lev_nil_left]; omega
        | cons c a =>
            rw [lev_cons_cons c y]
            by_cases hcy : c = y
            · rw [if_pos hcy]
              have := (ih a w (by simp at h; omega)).1 c
              omega
            · rw [if_neg hcy]
              have h0 := ih a w (by simp at h; omega)
              have h1 : lev (c :: a) w ≤ lev a w + 1 := h0.1 c
              have h2 : lev a w ≤ lev a (y :: w) + 1 := h0.2 y
              rcases min3_cases (lev a (y :: w)) (lev (c :: a) w) (lev a w)
                with h3 | h3 | h3 <;> rw [h3] <;> omega

theorem lev_cons_left_le (x : Char) (a w : Str) : lev (x :: a) w ≤ lev a w + 1 :=
  (lev_head_bounds (a.length + w.length) a w le_rfl).1 x

theorem lev_cons_right_le (y : Char) (a w : Str) : lev a w ≤ lev a (y :: w) + 1 :=
  (lev_head_bounds (a.length + w.length) a w le_rfl).2 y

theorem lev_drop_head_left (y : Char) (a w : Str) : lev a w ≤ lev (y :: a) w + 1 := by
  rw [lev_symm a w, lev_symm (y :: a) w]
  exact lev_cons_right_le y w a

theorem lev_del_le (x : Char) (q : Str) :
    ∀ p w : Str, lev (p ++ x :: q) w ≤ lev (p ++ q) w + 1 := by
  intro p
  induction p with
  | nil => intro w; simpa using lev_cons_left_le x q w
  | cons c p ih =>
      intro w
      induction w with
      | nil => simp [lev_nil_right]; omega
      | cons d w ihw =>
          rw [List.cons_append, List.cons_append, lev_cons_cons, lev_cons_cons]
          by_cases hcd : c = d
          · rw [if_pos hcd, if_pos hcd]
            have := ih w
            omega
          · rw [if_neg hcd, if_neg hcd]
            have h1 := ih (d :: w)
            have h2 : lev ((c :: p) ++ x :: q) w ≤ lev ((c :: p) ++ q) w + 1 := ihw
            have h3 := ih w
            simp only [List.cons_append] at h2
            have hA : min (lev (p ++ x :: q) (d :: w))
                (min (lev (c :: (p ++ x :: q)) w) (lev (p ++ x :: q) w))
                ≤ lev (p ++ x :: q) (d :: w) := min_le_left _ _
            have hB : min (lev (p ++ x :: q) (d :: w))
                (min (lev (c :: (p ++ x :: q)) w) (lev (p ++ x :: q) w))
                ≤ lev (c :: (p ++ x :: q)) w :=
              le_trans (min_le_right _ _) (min_le_left _ _)
            have hC : min (lev (p ++ x :: q) (d :: w))
                (min (lev (c :: (p ++ x :: q)) w) (lev (p ++ x :: q) w))
                ≤ lev (p ++ x :: q) w :=
              le_trans (min_le_right _ _) (min_le_right _ _)
            rcases min3_cases (lev (p ++ q) (d :: w)) (lev (c :: (p ++ q)) w)
              (lev (p ++ q) w) with h4 | h4 | h4 <;> rw [h4] <;> omega

theorem lev_sub_head_le (x y : Char) (q : Str) :
    ∀ w : Str, lev (x :: q) w ≤ lev (y :: q) w + 1 := by
  intro w
  induction w with
  | nil => simp [lev_nil_right]
  | cons d w ihw =>
      rw [lev_cons_cons, lev_cons_cons]
      by_cases hxd : x = d <;> by_cases hyd : y = d
      · rw [if_pos hxd, if_pos hyd]; omega
      · rw [if_pos hxd, if_neg hyd]
        have h1 : lev q w ≤ lev q (d :: w) + 1 := lev_cons_right_le d q w
        have h2 : lev q w ≤ lev (y :: q) w + 1 := lev_drop_head_left y q w
        rcases min3_cases (lev q (d :: w)) (lev (y :: q) w) (lev q w)
          with h3 | h3 | h3 <;> rw [h3] <;> omega
      · rw [if_neg hxd, if_pos hyd]
        have hC : min (lev q (d :: w)) (min (lev (x :: q) w) (lev q w))
            ≤ lev q w := le_trans (min_le_right _ _) (min_le_right _ _)
        omega
      · rw [if_neg hxd, if_neg hyd]
        have hA : min (lev q (d :: w)) (min (lev (x :: q) w) (lev q w))
            ≤ lev q (d :: w) := min_le_left _ _
        have hB : min (lev q (d :: w)) (min (lev (x :: q) w) (lev q w))
            ≤ lev (x :: q) w := le_trans (min_le_right _ _) (min_le_left _ _)
        have hC : min (lev q (d :: w)) (min (lev (x :: q) w) (lev q w))
            ≤ lev q w := le_trans (min_le_right _ _) (min_le_right _ _)
        rcases min3_cases (lev q (d :: w)) (lev (y :: q) w) (lev q w)
          with h3 | h3 | h3 <;> rw [h3] <;> omega

theorem lev_sub_le (x y : Char) (q : Str) :
    ∀ p w : Str, lev (p ++ x :: q) w ≤ lev (p ++ y :: q) w + 1 := by
  intro p
  induction p with
  | nil => intro w; simpa using lev_sub_head_le x y q w
  | cons c p ih =>
      intro w
      induction w with
      | nil => simp [lev_nil_right]
      | cons d w ihw =>
          rw [List.cons_append, List.cons_append, lev_cons_cons, lev_cons_cons]
          by_cases hcd : c = d
          · rw [if_pos hcd, if_pos hcd]
            have := ih w
            omega
          · rw [if_neg hcd, if_neg hcd]
            have h1 := ih (d :: w)
            have h2 : lev ((c :: p) ++ x :: q) w ≤ lev ((c :: p) ++ y :: q) w + 1 := ihw
            have h3 := ih w
            simp only [List.cons_append] at h2
            have hA : min (lev (p ++ x :: q) (d :: w))
                (min (lev (c :: (p ++ x :: q)) w) (lev (p ++ x :: q) w))
                ≤ lev (p ++ x :: q) (d :: w) := min_le_left _ _
            have hB : min (lev (p ++ x :: q) (d :: w))
                (min (lev (c :: (p ++ x :: q)) w) (lev (p ++ x :: q) w))
                ≤ lev (c :: (p ++ x :: q)) w :=
              le_trans (min_le_right _ _) (min_le_left _ _)
            have hC : min (lev (p ++ x :: q) (d :: w))
                (min (lev (c :: (p ++ x :: q)) w) (lev (p ++ x :: q) w))
                ≤ lev (p ++ x :: q) w :=
              le_trans (min_le_right _ _) (min_le_right _ _)
            rcases min3_cases (lev (p ++ y :: q) (d :: w)) (lev (c :: (p ++ y :: q)) w)
              (lev (p ++ y :: q) w) with h4 | h4 | h4 <;> rw [h4] <;> omega

theorem lev_ins_le (y : Char) (q : Str) :
    ∀ p w : Str, lev (p ++ q) w ≤ lev (p ++ y :: q) w + 1 := by
  intro p
  induction p with
  | nil => intro w; simpa using lev_drop_head_left y q w
  | cons c p ih =>
      intro w
      induction w with
      | nil => simp [lev_nil_right]; omega
      | cons d w ihw =>
          rw [List.cons_append, List.cons_append, lev_cons_cons, lev_cons_cons]
          by_cases hcd : c = d
          · rw [if_pos hcd, if_pos hcd]
            have := ih w
            omega
          · rw [if_neg hcd, if_neg hcd]
            have h1 := ih (d :: w)
            have h2 : lev ((c :: p) ++ q) w ≤ lev ((c :: p) ++ y :: q) w + 1 := ihw
            have h3 := ih w
            simp only [List.cons_append] at h2
            have hA : min (lev (p ++ q) (d :: w))
                (min (lev (c :: (p ++ q)) w) (lev (p ++ q) w))
                ≤ lev (p ++ q) (d :: w) := min_le_left _ _
            have hB : min (lev (p ++ q) (d :: w))
                (min (lev (c :: (p ++ q)) w) (lev (p ++ q) w))
                ≤ lev (c :: (p ++ q)) w :=
              le_trans (min_le_right _ _) (min_le_left _ _)
            have hC : min (lev (p ++ q) (d :: w))
                (min (lev (c :: (p ++ q)) w) (lev (p ++ q) w))
                ≤ lev (p ++ q) w :=
              le_trans (min_le_right _ _) (min_le_right _ _)
            rcases min3_cases (lev (p ++ y :: q) (d :: w)) (lev (c :: (p ++ y :: q)) w)
              (lev (p ++ y :: q) w) with h4 | h4 | h4 <;> rw [h4] <;> omega

theorem lev_le_of_oneEdit {A u v : Str} (h : OneEditA A u v) (w : Str) :
    lev u w ≤ lev v w + 1 := by
  cases h with
  | del p q x => exact lev_del_le x q p w
  | sub p q x y hy => exact lev_sub_le x y q p w
  | ins p q y hy => exact lev_ins_le y q p w

theorem lev_le_chain {A : Str} : ∀ {n : Nat} {a b : Str},
    EditChain A n a b → lev a b ≤ n := by
  intro n a b h
  induction h with
  | refl a => simp [lev_self]
  | @step u v w m e t ih =>
      have := lev_le_of_oneEdit e w
      omega

theorem OneEditA.consEdit {A u v : Str} (c : Char) (h : OneEditA A u v) :
    OneEditA A (c :: u) (c :: v) := by
  cases h with
  | del p q x => exact OneEditA.del (c :: p) q x
  | sub p q x y hy => exact OneEditA.sub (c :: p) q x y hy
  | ins p q y hy => exact OneEditA.ins (c :: p) q y hy

theorem EditChain.consChain {A u v : Str} {n : Nat} (c : Char)
    (h : EditChain A n u v) : EditChain A n (c :: u) (c :: v) := by
  induction h with
  | refl a => exact EditChain.refl (c :: a)
  | step e _ ih => exact EditChain.step (e.consEdit c) ih

theorem OneEditA.monoEdit {A B u v : Str} (hAB : ∀ x ∈ A, x ∈ B)
    (h : OneEditA A u v) : OneEditA B u v := by
  cases h with
  | del p q x => exact OneEditA.del p q x
  | sub p q x y hy => exact OneEditA.sub p q x y (hAB y hy)
  | ins p q y hy => exact OneEditA.ins p q y (hAB y hy)

theorem EditChain.monoChain {A B u v : Str} {n : Nat} (hAB : ∀ x ∈ A, x ∈ B)
    (h : EditChain A n u v) : EditChain B n u v := by
  induction h with
  | refl a => exact EditChain.refl a
  | step e _ ih => exact EditChain.step (e.monoEdit hAB) ih

theorem EditChain.comp {A : Str} : ∀ {m n : Nat} {a b c : Str},
    EditChain A m a b → EditChain A n b c → EditChain A (m + n) a c := by
  intro m n a b c h1 h2
  induction h1 with
  | refl a => simpa using h2
  | step e _ ih =>
      have := EditChain.step e (ih h2)
      simpa [Nat.add_right_comm] using this

theorem chain_nil_to : ∀ (b A : Str), (∀ c ∈ b, c ∈ A) →
    EditChain A b.length [] b := by
  intro b
  induction b with
  | nil => intro A _; exact EditChain.refl []
  | cons y b ih =>
      intro A hA
      have h1 : OneEditA A [] [y] := by
        have := OneEditA.ins (A := A) [] [] y (hA y (by simp))
        simpa using this
      have h2 : EditChain A b.length [y] (y :: b) :=
        (ih A fun c hc => hA c (by simp [hc])).consChain y
      simpa [Nat.add_comm] using EditChain.step h1 h2

theorem chain_to_nil : ∀ (a : Str) (A : Str), EditChain A a.length a [] := by
  intro a A
  induction a with
  | nil => exact EditChain.refl []
  | cons x a ih =>
      have h1 : OneEditA A (x :: a) a := by
        have := OneEditA.del (A := A) [] a x
        simpa using this
      simpa [Nat.add_comm] using EditChain.step h1 ih

theorem chain_to : ∀ a b : Str, ∃ n : Nat, n ≤ lev a b ∧ EditChain b n a b := by
  intro a b
  induction a, b using lev.induct with
  | case1 b =>
      exact ⟨b.length, by simp [lev_nil_left], chain_nil_to b b fun c hc => hc⟩
  | case2 x a =>
      exact ⟨a.length + 1, by simp [lev_nil_right], chain_to_nil (x :: a) []⟩
  | case3 a y b ih =>
      obtain ⟨n, hn, ch⟩ := ih
      refine ⟨n, ?_, ?_⟩
      · simp [lev_cons_cons, hn]
      · exact (ch.consChain y).monoChain fun c hc => by simp [hc]
  | case4 x a y b hxy ih1 ih2 ih3 =>
      rw [lev_cons_cons, if_neg hxy]
      rcases min3_cases (lev a (y :: b)) (lev (x :: a) b) (lev a b) with h | h | h
      · obtain ⟨n, hn, ch⟩ := ih1
        refine ⟨n + 1, by omega, ?_⟩
        have hdel : OneEditA (y :: b) (x :: a) a := by
          have := OneEditA.del (A := y :: b) [] a x
          simpa using this
        exact EditChain.step hdel (by simpa [Nat.add_comm] using ch) |>.comp (EditChain.refl _) |>.monoChain fun c hc => hc
      · obtain ⟨n, hn, ch⟩ := ih2
        refine ⟨n + 1, by omega, ?_⟩
        have hins : OneEditA (y :: b) (x :: a) (y :: x :: a) := by
          have := OneEditA.ins (A := y :: b) [] (x :: a) y (by simp)
          simpa using this
        have hlift : EditChain (y :: b) n (y :: x :: a) (y :: b) :=
          (ch.monoChain fun c hc => by simp [hc]).consChain y
        simpa [Nat.add_comm] using EditChain.step hins hlift
      · obtain ⟨n, hn, ch⟩ := ih3
        refine ⟨n + 1, by omega, ?_⟩
        have hsub : OneEditA (y :: b) (x :: a) (y :: a) := by
          have := OneEditA.sub (A := y :: b) [] a x y (by simp)
          simpa using this
        have hlift : EditChain (y :: b) n (y :: a) (y :: b) :=
          (ch.monoChain fun c hc => by simp [hc]).consChain y
        simpa [Nat.add_comm] using EditChain.step hsub hlift

theorem lev_triangle (a b c : Str) : lev a b ≤ lev a c + lev c b := by
  obtain ⟨m, hm, ch1⟩ := chain_to a c
  obtain ⟨n, hn, ch2⟩ := chain_to c b
  have hcomp : EditChain (c ++ b) (m + n) a b :=
    (ch1.monoChain fun x hx => by simp [hx]).comp (ch2.monoChain fun x hx => by simp [hx])
  have := lev_le_chain hcomp
  omega

theorem OneEditA.revEdit {A u v : Str} (h : OneEditA A u v) :
    OneEditA A u.reverse v.reverse := by
  cases h with
  | del p q x =>
      have := OneEditA.del (A := A) q.reverse p.reverse x
      simpa [List.reverse_append] using this
  | sub p q x y hy =>
      have := OneEditA.sub (A := A) q.reverse p.reverse x y hy
      simpa [List.reverse_append] using this
  | ins p q y hy =>
      have := OneEditA.ins (A := A) q.reverse p.reverse y hy
      simpa [List.reverse_append] using this

theorem EditChain.revChain {A u v : Str} {n : Nat} (h : EditChain A n u v) :
    EditChain A n u.reverse v.reverse := by
  induction h with
  | refl a => exact EditChain.refl a.reverse
  | step e _ ih => exact EditChain.step e.revEdit ih

theorem lev_rev (a b : Str) : lev a.reverse b.reverse = lev a b := by
  have dir : ∀ u v : Str, lev u.reverse v.reverse ≤ lev u v := by
    intro u v
    obtain ⟨n, hn, ch⟩ := chain_to u v
    have := lev_le_chain ch.revChain
    omega
  have h1 := dir a b
  have h2 := dir a.reverse b.reverse
  simp only [List.reverse_reverse] at h2
  omega

theorem lev_eq_zero {a b : Str} (h : lev a b = 0) : a = b := by
  induction a, b using lev.induct with
  | case1 b => rw [lev_nil_left] at h; simpa using (List.length_eq_zero.mp h).symm
  | case2 x a => rw [lev_nil_right] at h; simp at h
  | case3 a y b ih => rw [lev_cons_cons, if_pos rfl] at h; rw [ih h]
  | case4 x a y b hxy ih1 ih2 ih3 => rw [lev_cons_cons, if_neg hxy] at h; omega

theorem lev_append_singleton (a b : Str) (x y : Char) :
    lev (a ++ [x]) (b ++ [y]) =
      if x = y then lev a b
      else 1 + min (lev a (b ++ [y])) (min (lev (a ++ [x]) b) (lev a b)) := by
  have h1 : y :: b.reverse = (b ++ [y]).reverse := by simp
  have h2 : x :: a.reverse = (a ++ [x]).reverse := by simp
  have key := lev_cons_cons x y a.reverse b.reverse
  rw [h1, h2] at key
  simpa only [lev_rev] using key

theorem lev_bounds_for_dp (a b : Str) (x : Char) :
    lev a b ≤ lev (a ++ [x]) b + 1 ∧ lev a b ≤ lev a (b ++ [x]) + 1 := by
  constructor
  · have := lev_ins_le x ([] : Str) a b
    simpa using this
  · have := lev_ins_le x ([] : Str) b a
    simp only [List.append_nil] at this
    calc lev a b = lev b a := lev_symm a b
      _ ≤ lev (b ++ [x]) a + 1 := this
      _ = lev a (b ++ [x]) + 1 := by rw [lev_symm]

theorem dpFun_eq_lev (s1 s2 : Str) :
    ∀ i j : Nat, i ≤ s1.length → j ≤ s2.length →
      dpFun s1 s2 i j = lev (s1.take i) (s2.take j) := by
  have htake : ∀ (l : Str) (i : Nat), i < l.length →
      l.take (i + 1) = l.take i ++ [l.getD i ' '] := by
    intro l i hi
    rw [List.take_succ]
    congr 1
    rw [List.getElem?_eq_getElem hi]
    simp [List.getD_eq_getElem?_getD, List.getElem?_eq_getElem hi]
  intro i
  induction i with
  | zero =>
      intro j _ hj
      simp [dpFun, lev_nil_left, List.length_take, Nat.min_eq_left hj]
  | succ i ih =>
      intro j
      induction j with
      | zero =>
          intro hi _
          have hlen : (s1.take (i + 1)).length = i + 1 := by
            simp [List.length_take, Nat.min_eq_left hi]
          simp [dpFun, dpNext, lev_nil_right, hlen]
      | succ j ihj =>
          intro hi hj
          have hi' : i < s1.length := by omega
          have hj' : j < s2.length := by omega
          have e1 : dpFun s1 s2 (i + 1) (j + 1)
              = min (dpFun s1 s2 i (j + 1) + 1)
                  (min (dpFun s1 s2 (i + 1) j + 1)
                    (dpFun s1 s2 i j
                      + (if s1.getD i ' ' = s2.getD j ' ' then 0 else 1))) := by
            simp [dpFun, dpNext]
          rw [e1, ih (j + 1) (by omega) hj, ihj hi (by omega), ih j (by omega) (by omega),
            htake s1 i hi', htake s2 j hj', lev_append_singleton]
          by_cases hc : s1.getD i ' ' = s2.getD j ' '
          · rw [if_pos hc, if_pos hc]
            have hb1 := (lev_bounds_for_dp (s1.take i) (s2.take j) (s2.getD j ' ')).2
            have hb2 := (lev_bounds_for_dp (s1.take i) (s2.take j) (s1.getD i ' ')).1
            simp only [Nat.add_zero]
            rw [min_eq_right hb2, min_eq_right hb1]
          · rw [if_neg hc, if_neg hc]
            rw [min_add_add_right, min_add_add_right, Nat.add_comm]

theorem levenshteinDistance_eq_lev (s1 s2 : Str) :
    levenshteinDistance s1 s2 = lev s1 s2 := by
  unfold levenshteinDistance
  by_cases h1 : s1 = s2
  · rw [if_pos h1, h1, lev_self]
  · rw [if_neg h1]
    by_cases h2 : s1 = []
    · rw [if_pos h2, h2, lev_nil_left]
    · rw [if_neg h2]
      by_cases h3 : s2 = []
      · rw [if_pos h3, h3, lev_nil_right]
      · rw [if_neg h3]
        have := dpFun_eq_lev s1 s2 s1.length s2.length le_rfl le_rfl
        simpa [List.take_length] using this

/-- C3: the source's `levenshteinDistance` is a metric: it is symmetric,
zero on equal strings, satisfies the triangle inequality, and the distance
from the empty string to `b` is the length of `b` (empty strings are handled
by the early returns, not by an error). -/
theorem levenshteinDistance_metric :
    (∀ a b : Str, levenshteinDistance a b = levenshteinDistance b a) ∧
    (∀ a : Str, levenshteinDistance a a = 0) ∧
    (∀ a b c : Str,
      levenshteinDistance a b ≤ levenshteinDistance a c + levenshteinDistance c b) ∧
    (∀ b : Str, levenshteinDistance [] b = b.length) := by
  refine ⟨?_, ?_, ?_, ?_⟩
  · intro a b; rw [levenshteinDistance_eq_lev, levenshteinDistance_eq_lev, lev_symm]
  · intro a; rw [levenshteinDistance_eq_lev, lev_self]
  · intro a b c
    rw [levenshteinDistance_eq_lev, levenshteinDistance_eq_lev,
      levenshteinDistance_eq_lev]
    exact lev_triangle a b c
  · intro b; rw [levenshteinDistance_eq_lev, lev_nil_left]

/-! ## Variation generator lemmas -/

theorem mem_addEdits_of_oneEdit {u v : Str}
    (h : OneEditA alphabetChars u v) : v ∈ addEdits u := by
  cases h with
  | del p q x =>
      have hi : p.length < (p ++ x :: q).length := by simp
      have ht : (p ++ x :: q).take p.length = p := List.take_left p (x :: q)
      have hd : (p ++ x :: q).drop (p.length + 1) = q := by
        have e : p ++ x :: q = (p ++ [x]) ++ q := by simp
        rw [e]
        have hlen : p.length + 1 = (p ++ [x]).length := by simp
        rw [hlen]
        exact List.drop_left (p ++ [x]) q
      unfold addEdits
      apply List.mem_append_left
      apply List.mem_append_left
      apply List.mem_append_left
      exact List.mem_map.mpr ⟨p.length, List.mem_range.mpr hi, by simp [ht, hd]⟩
  | sub p q x y hy =>
      have hi : p.length < (p ++ x :: q).length := by simp
      have ht : (p ++ x :: q).take p.length = p := List.take_left p (x :: q)
      have hd : (p ++ x :: q).drop (p.length + 1) = q := by
        have e : p ++ x :: q = (p ++ [x]) ++ q := by simp
        rw [e]
        have hlen : p.length + 1 = (p ++ [x]).length := by simp
        rw [hlen]
        exact List.drop_left (p ++ [x]) q
      unfold addEdits
      apply List.mem_append_left
      apply List.mem_append_right
      exact List.mem_flatMap.mpr ⟨p.length, List.mem_range.mpr hi,
        List.mem_map.mpr ⟨y, hy, by simp [ht, hd]⟩⟩
  | ins p q y hy =>
      have hi : p.length < (p ++ q).length + 1 := by
        simp only [List.length_append]; omega
      have ht : (p ++ q).take p.length = p := List.take_left p q
      have hd : (p ++ q).drop p.length = q := List.drop_left p q
      unfold addEdits
      apply List.mem_append_right
      exact List.mem_flatMap.mpr ⟨p.length, List.mem_range.mpr hi,
        List.mem_map.mpr ⟨y, hy, by simp [ht, hd]⟩⟩

theorem subset_varStep (vs : List Str) : vs ⊆ varStep vs := by
  intro x hx
  simp [varStep, hx]

theorem varStep_subset_varStep {vs ws : List Str} (h : vs ⊆ ws) :
    varStep vs ⊆ varStep ws := by
  intro x hx
  simp only [varStep, List.mem_append, List.mem_flatMap] at hx ⊢
  rcases hx with hx | ⟨w, hw, hx⟩
  · exact Or.inl (h hx)
  · exact Or.inr ⟨w, h hw, hx⟩

theorem varRounds_subset_varRounds :
    ∀ (k : Nat) {vs ws : List Str}, vs ⊆ ws → varRounds k vs ⊆ varRounds k ws := by
  intro k
  induction k with
  | zero => intro vs ws h; simpa [varRounds] using h
  | succ k ih =>
      intro vs ws h
      simpa [varRounds] using ih (varStep_subset_varStep h)

theorem subset_varRounds : ∀ (k : Nat) (vs : List Str), vs ⊆ varRounds k vs := by
  intro k
  induction k with
  | zero => intro vs; simp [varRounds]
  | succ k ih =>
      intro vs
      intro x hx
      simp only [varRounds]
      exact ih (varStep vs) (subset_varStep vs hx)

theorem varRounds_add (m n : Nat) :
    ∀ vs : List Str, varRounds (m + n) vs = varRounds n (varRounds m vs) := by
  induction m with
  | zero => intro vs; simp [varRounds]
  | succ m ih =>
      intro vs
      have e1 : m + 1 + n = (m + n) + 1 := by omega
      rw [e1]
      show varRounds (m + n) (varStep vs) = varRounds n (varRounds m (varStep vs))
      exact ih (varStep vs)

theorem varRounds_le_rounds {n k : Nat} (h : n ≤ k) (vs : List Str) :
    varRounds n vs ⊆ varRounds k vs := by
  obtain ⟨d, rfl⟩ := Nat.exists_eq_add_of_le h
  rw [varRounds_add]
  exact subset_varRounds d (varRounds n vs)

theorem chain_in_varRounds :
    ∀ {n : Nat} {a b : Str}, EditChain alphabetChars n a b →
      ∀ vs : List Str, a ∈ vs → b ∈ varRounds n vs := by
  intro n a b h
  induction h with
  | refl a => intro vs ha; simpa [varRounds] using ha
  | @step u v w m e t ih =>
      intro vs hu
      show w ∈ varRounds m (varStep vs)
      apply ih
      simp only [varStep, List.mem_append, List.mem_flatMap]
      exact Or.inr ⟨u, hu, mem_addEdits_of_oneEdit e⟩

/-- C2 counterexample: the claim fails for the empty word.  The string "a"
is over the fixed alphabet and at true Levenshtein distance 1 from the
empty word, but `getVariations` with `maxDistance = 1` returns early on an
empty word, producing only the word itself. -/
theorem getVariations_superset_cex :
    lev [] ['a'] = 1 ∧ (∀ c ∈ (['a'] : Str), c ∈ alphabetChars) ∧
    ['a'] ∉ (FuzzyMatcher.mk 1).getVariations [] := by
  refine ⟨by simp [lev_nil_left], by decide, ?_⟩
  simp [FuzzyMatcher.getVariations]

/-- C2 (amended): for every NONEMPTY word and every `maxDistance` `k ≥ 0`,
every string over the fixed alphabet (lowercase a-z, digits 0-9, space)
whose true Levenshtein distance from the word is at most `k` is a member of
the set returned by `getVariations` configured with `maxDistance = k`. -/
theorem getVariations_superset (k : Nat) (word b : Str) (hw : word ≠ [])
    (hb : ∀ c ∈ b, c ∈ alphabetChars) (hd : lev word b ≤ k) :
    b ∈ (FuzzyMatcher.mk k).getVariations word := by
  unfold FuzzyMatcher.getVariations
  by_cases hk : k = 0
  · subst hk
    have hz : lev word b = 0 := by omega
    have := lev_eq_zero hz
    subst this
    simp
  · rw [if_neg (by simp [hw, hk])]
    obtain ⟨n, hn, ch⟩ := chain_to word b
    have hmem : b ∈ varRounds n [word] :=
      chain_in_varRounds (ch.monoChain hb) [word] (by simp)
    exact varRounds_le_rounds (by simp; omega) [word] hmem

/-- Witness for the amended C2 at a concrete input. -/
theorem getVariations_superset_witness :
    (['a'] : Str) ≠ [] ∧ (∀ c ∈ (['a','b'] : Str), c ∈ alphabetChars) ∧
    lev ['a'] ['a','b'] ≤ 1 ∧
    ['a','b'] ∈ (FuzzyMatcher.mk 1).getVariations ['a'] := by
  have hlev : lev ['a'] ['a','b'] ≤ 1 := by
    rw [← levenshteinDistance_eq_lev]
    decide
  exact ⟨by decide, by decide, hlev,
    getVariations_superset 1 ['a'] ['a','b'] (by decide) (by decide) hlev⟩

/-! ## Sortedness of the comparator sorts -/

theorem mem_jsInsert {α : Type} (before : α → α → Bool) (x : α) :
    ∀ (l : List α) (z : α), z ∈ jsInsert before x l → z = x ∨ z ∈ l := by
  intro l
  induction l with
  | nil => intro z hz; simpa [jsInsert] using hz
  | cons y l ih =>
      intro z hz
      unfold jsInsert at hz
      by_cases hxy : before x y = true
      · rw [if_pos hxy] at hz
        simp only [List.mem_cons] at hz
        rcases hz with hz | hz | hz
        · exact Or.inl hz
        · exact Or.inr (by simp [hz])
        · exact Or.inr (by simp [hz])
      · rw [if_neg hxy] at hz
        simp only [List.mem_cons] at hz
        rcases hz with hz | hz
        · exact Or.inr (by simp [hz])
        · rcases ih z hz with h | h
          · exact Or.inl h
          · exact Or.inr (by simp [h])

theorem pairwise_jsInsert {α : Type} (before : α → α → Bool)
    (htr : ∀ a b c, before a b = true → before b c = true → before a c = true)
    (hasym : ∀ a b, before a b = true → before b a = false) (x : α) :
    ∀ l : List α, l.Pairwise (fun a b => before b a = false) →
      (jsInsert before x l).Pairwise (fun a b => before b a = false) := by
  intro l
  induction l with
  | nil => intro _; simp [jsInsert]
  | cons y l ih =>
      intro hp
      rw [List.pairwise_cons] at hp
      obtain ⟨hy, hl⟩ := hp
      unfold jsInsert
      by_cases hxy : before x y = true
      · rw [if_pos hxy]
        rw [List.pairwise_cons]
        constructor
        · intro z hz
          simp only [List.mem_cons] at hz
          rcases hz with rfl | hz
          · exact hasym _ _ hxy
          · by_contra hc
            have hzx : before z x = true := by
              cases hb : before z x
              · exact absurd hb hc
              · rfl
            have := htr z x y hzx hxy
            have := hy z hz
            simp_all
        · rw [List.pairwise_cons]
          exact ⟨hy, hl⟩
      · rw [if_neg hxy]
        rw [List.pairwise_cons]
        constructor
        · intro z hz
          rcases mem_jsInsert before x l z hz with rfl | hz
          · cases hb : before z y
            · rfl
            · exact absurd hb (by simp [hxy])
          · exact hy z hz
        · exact ih hl

theorem pairwise_jsSortBy {α : Type} (before : α → α → Bool)
    (htr : ∀ a b c, before a b = true → before b c = true → before a c = true)
    (hasym : ∀ a b, before a b = true → before b a = false) (l : List α) :
    (jsSortBy before l).Pairwise (fun a b => before b a = false) := by
  have aux : ∀ (l acc : List α),
      acc.Pairwise (fun a b => before b a = false) →
      (l.foldl (fun acc x => jsInsert before x acc) acc).Pairwise
        (fun a b => before b a = false) := by
    intro l
    induction l with
    | nil => intro acc h; simpa using h
    | cons x l ih =>
        intro acc h
        exact ih (jsInsert before x acc) (pairwise_jsInsert before htr hasym x acc h)
  exact aux l [] (by simp)

theorem finalBefore_trans (a b c : RankedCand) (h1 : finalBefore a b = true)
    (h2 : finalBefore b c = true) : finalBefore a c = true := by
  unfold finalBefore at *
  by_cases hab : a.frequency ≠ b.frequency <;>
    by_cases hbc : b.frequency ≠ c.frequency <;>
    by_cases hac : a.frequency ≠ c.frequency <;>
    simp_all <;> omega

theorem finalBefore_asymm (a b : RankedCand) (h : finalBefore a b = true) :
    finalBefore b a = false := by
  unfold finalBefore at *
  by_cases hab : a.frequency = b.frequency
  · rw [if_neg (by simp [hab])] at h
    rw [if_neg (by simp [hab])]
    simp at h ⊢
    omega
  · rw [if_pos hab] at h
    rw [if_pos (Ne.symm hab)]
    simp at h ⊢
    omega

theorem autocomplete_sorted (st : FuzzyTrieAutocomplete) (query : Str)
    (limit : Nat) :
    (st.autocomplete query limit).Pairwise
      (fun a b => finalBefore b a = false) := by
  unfold FuzzyTrieAutocomplete.autocomplete
  by_cases hq : query = []
  · simp [hq]
  · rw [if_neg hq]
    exact List.Pairwise.sublist (List.take_sublist _ _)
      (pairwise_jsSortBy finalBefore finalBefore_trans finalBefore_asymm _)

/-- C1: in the list returned by `FuzzyTrieAutocomplete.autocomplete`, if two
candidates have equal recorded edit distance from the query, the candidate
with strictly higher frequency appears strictly before the one with lower
frequency (frequency descending is the primary ranking key; distance
ascending breaks ties). -/
theorem autocomplete_freq_ordering (st : FuzzyTrieAutocomplete) (query : Str)
    (limit : Nat) (i j : Nat) (hi : i < (st.autocomplete query limit).length)
    (hj : j < (st.autocomplete query limit).length)
    (hfreq : ((st.autocomplete query limit).get ⟨j, hj⟩).frequency
      < ((st.autocomplete query limit).get ⟨i, hi⟩).frequency)
    (hdist : ((st.autocomplete query limit).get ⟨i, hi⟩).distance
      = ((st.autocomplete query limit).get ⟨j, hj⟩).distance) :
    i < j := by
  by_contra hij
  push_neg at hij
  rcases Nat.lt_or_ge j i with hji | hji
  · have hp := autocomplete_sorted st query limit
    have := (List.pairwise_iff_getElem.mp hp) j i hj hi hji
    simp only [List.get_eq_getElem] at hfreq hdist
    unfold finalBefore at this
    have hne : ((st.autocomplete query limit)[i]).frequency
        ≠ ((st.autocomplete query limit)[j]).frequency := by omega
    rw [if_pos hne] at this
    simp at this
    omega
  · have : i = j := by omega
    subst this
    simp only [List.get_eq_getElem] at hfreq
    omega

/-- C8: the list returned by autocomplete never exceeds the limit, at the
orchestrator level and at the trie level, and the default limit when
unspecified is 10. -/
theorem autocomplete_limit_respected :
    (∀ (st : FuzzyTrieAutocomplete) (query : Str) (limit : Nat),
      (st.autocomplete query limit).length ≤ limit) ∧
    (∀ (t : EnhancedTrie) (pfx : Str) (limit : Nat),
      (t.autocomplete pfx limit).length ≤ limit) ∧
    (∀ (st : FuzzyTrieAutocomplete) (query : Str),
      st.autocompleteDefault query = st.autocomplete query 10) ∧
    (∀ (t : EnhancedTrie) (pfx : Str),
      t.autocompleteDefault pfx = t.autocomplete pfx 10) := by
  refine ⟨?_, ?_, fun st query => rfl, fun t pfx => rfl⟩
  · intro st query limit
    unfold FuzzyTrieAutocomplete.autocomplete
    by_cases hq : query = []
    · simp [hq]
    · rw [if_neg hq]
      exact List.length_take_le _ _
  · intro t pfx limit
    unfold EnhancedTrie.autocomplete
    by_cases hp : pfx = []
    · simp [hp]
    · rw [if_neg hp]
      cases t.navigate pfx with
      | none => simp
      | some nd =>
          simp only [rankSuggestions, List.length_map]
          exact List.length_take_le _ _

/-- Witness for the ranking claim: in `witnessState`, the query "a" yields
the frequency-5 candidate "ab" strictly before the frequency-1 candidate
"ac", both at recorded distance 1. -/
theorem autocomplete_freq_ordering_witness :
    ((witnessState.autocomplete ['a'] 10).get ⟨1, by decide⟩).frequency
      < ((witnessState.autocomplete ['a'] 10).get ⟨0, by decide⟩).frequency ∧
    ((witnessState.autocomplete ['a'] 10).get ⟨0, by decide⟩).distance
      = ((witnessState.autocomplete ['a'] 10).get ⟨1, by decide⟩).distance ∧
    0 < 1 :=
  ⟨by decide, by decide,
    autocomplete_freq_ordering witnessState ['a'] 10 0 1 (by decide) (by decide)
      (by decide) (by decide)⟩

/-! ## Trie structure lemmas -/

theorem findAllWords_mk (ch : List (Char × TrieNode)) (e : Bool) (t : Str)
    (f lu : Nat) :
    (TrieNode.mk ch e t f lu).findAllWords
      = (if e then [⟨t, f, lu⟩] else []) ++ findAllWordsList ch := by
  rw [TrieNode.findAllWords]

theorem findAllWordsList_cons (c : Char) (nd : TrieNode)
    (rest : List (Char × TrieNode)) :
    findAllWordsList ((c, nd) :: rest)
      = nd.findAllWords ++ findAllWordsList rest := by
  rw [findAllWordsList]

theorem countNodes_mk (ch : List (Char × TrieNode)) (e : Bool) (t : Str)
    (f lu : Nat) :
    (TrieNode.mk ch e t f lu).countNodes
      = (if e then 1 else 0) + countNodesList ch := by
  rw [TrieNode.countNodes]

theorem countNodesList_cons (c : Char) (nd : TrieNode)
    (rest : List (Char × TrieNode)) :
    countNodesList ((c, nd) :: rest) = nd.countNodes + countNodesList rest := by
  rw [countNodesList]

theorem countTotal_mk (ch : List (Char × TrieNode)) (e : Bool) (t : Str)
    (f lu : Nat) :
    (TrieNode.mk ch e t f lu).countTotal = 1 + countTotalList ch := by
  rw [TrieNode.countTotal]

theorem countTotalList_cons (c : Char) (nd : TrieNode)
    (rest : List (Char × TrieNode)) :
    countTotalList ((c, nd) :: rest) = nd.countTotal + countTotalList rest := by
  rw [countTotalList]

theorem getChild_setChild_same (ch : List (Char × TrieNode)) (c : Char)
    (nd : TrieNode) : getChild (setChild ch c nd) c = some nd := by
  induction ch with
  | nil => simp [setChild, getChild]
  | cons p rest ih =>
      obtain ⟨d, m⟩ := p
      unfold setChild
      by_cases hdc : d = c
      · rw [if_pos hdc]
        simp [getChild]
      · rw [if_neg hdc]
        unfold getChild
        rw [if_neg hdc]
        exact ih

theorem getChild_setChild_other (ch : List (Char × TrieNode)) (c d : Char)
    (nd : TrieNode) (h : d ≠ c) :
    getChild (setChild ch c nd) d = getChild ch d := by
  induction ch with
  | nil =>
      show getChild [(c, nd)] d = getChild [] d
      unfold getChild
      rw [if_neg fun he => h he.symm]
      rfl
  | cons p rest ih =>
      obtain ⟨e, m⟩ := p
      unfold setChild
      by_cases hec : e = c
      · subst hec
        rw [if_pos rfl]
        show getChild ((e, nd) :: rest) d = getChild ((e, m) :: rest) d
        unfold getChild
        rw [if_neg fun he => h he.symm, if_neg fun he => h he.symm]
      · rw [if_neg hec]
        show getChild ((e, m) :: setChild rest c nd) d = getChild ((e, m) :: rest) d
        unfold getChild
        by_cases hed : e = d
        · rw [if_pos hed, if_pos hed]
        · rw [if_neg hed, if_neg hed]
          exact ih

theorem insertGo_nil (nd : TrieNode) (text : Str) (now : Nat) :
    insertGo nd [] text now = .mk nd.children true text (nd.frequency + 1) now :=
  rfl

theorem insertGo_cons (nd : TrieNode) (c : Char) (key text : Str) (now : Nat) :
    insertGo nd (c :: key) text now
      = .mk (setChild nd.children c
          (insertGo ((getChild nd.children c).getD TrieNode.emptyNode) key text now))
        nd.isEndOfWord nd.fullSentence nd.frequency nd.lastUsed :=
  rfl

theorem followPath_cons (nd : TrieNode) (c : Char) (key : Str) :
    followPath nd (c :: key)
      = match getChild nd.children c with
        | none => none
        | some child => followPath child key :=
  rfl

theorem children_mk (ch : List (Char × TrieNode)) (e : Bool) (t : Str)
    (f lu : Nat) : (TrieNode.mk ch e t f lu).children = ch := rfl

theorem followPath_insertGo :
    ∀ (key extra : Str) (nd : TrieNode) (text : Str) (now : Nat),
      followPath (insertGo nd (key ++ extra) text now) key
        = some (insertGo (walkOrEmpty nd key) extra text now) := by
  intro key
  induction key with
  | nil => intro extra nd text now; rfl
  | cons c key ih =>
      intro extra nd text now
      rw [show ((c :: key : Str) ++ extra) = c :: (key ++ extra) from rfl,
        insertGo_cons, followPath_cons, children_mk, getChild_setChild_same]
      show followPath
        (insertGo ((getChild nd.children c).getD TrieNode.emptyNode)
          (key ++ extra) text now) key = _
      exact ih extra _ text now

theorem findAllWordsList_setChild_superset
    (ch : List (Char × TrieNode)) (c : Char) (nd : TrieNode) :
    ∀ cand ∈ nd.findAllWords, cand ∈ findAllWordsList (setChild ch c nd) := by
  induction ch with
  | nil =>
      intro cand hc
      unfold setChild
      rw [findAllWordsList_cons]
      simp [hc]
  | cons p rest ih =>
      obtain ⟨d, m⟩ := p
      intro cand hc
      unfold setChild
      by_cases hdc : d = c
      · rw [if_pos hdc, findAllWordsList_cons]
        simp [hc]
      · rw [if_neg hdc, findAllWordsList_cons]
        exact List.mem_append_right _ (ih cand hc)

theorem findAllWords_insertGo_self :
    ∀ (key : Str) (nd : TrieNode) (text : Str) (now : Nat),
      ∃ cand ∈ (insertGo nd key text now).findAllWords, cand.text = text := by
  intro key
  induction key with
  | nil =>
      intro nd text now
      refine ⟨⟨text, nd.frequency + 1, now⟩, ?_, rfl⟩
      unfold insertGo
      rw [findAllWords_mk]
      simp
  | cons c key ih =>
      intro nd text now
      obtain ⟨cand, hmem, htext⟩ :=
        ih ((getChild nd.children c).getD TrieNode.emptyNode) text now
      refine ⟨cand, ?_, htext⟩
      unfold insertGo
      rw [findAllWords_mk]
      exact List.mem_append_right _
        (findAllWordsList_setChild_superset nd.children c _ cand hmem)

theorem processSentence_eq_nil (p : Str) :
    EnhancedTrie.processSentence p = [] ↔ p = [] := by
  unfold EnhancedTrie.processSentence toLowerStr
  simp

/-- C4: after inserting a non-blank sentence, looking up any case variant of
a prefix of its lowercased key walks to a node below which the candidate
collection contains a candidate whose text is the trimmed original
sentence; and any two prefixes with the same normalized key (such as
"THE QUICK" and "the quick") produce identical autocomplete results. -/
theorem insert_lookup_roundtrip :
    (∀ (t : EnhancedTrie) (s p : Str) (now : Nat), trimJs s ≠ [] →
      EnhancedTrie.processSentence p <+: EnhancedTrie.processSentence s →
      ∃ nd, (t.insert s now).navigate p = some nd ∧
        ∃ cand ∈ nd.findAllWords, cand.text = trimJs s) ∧
    (∀ (t : EnhancedTrie) (p1 p2 : Str) (limit : Nat),
      EnhancedTrie.processSentence p1 = EnhancedTrie.processSentence p2 →
      t.autocomplete p1 limit = t.autocomplete p2 limit) := by
  constructor
  · intro t s p now htrim hpre
    have hs : s ≠ [] := by
      intro he
      rw [he] at htrim
      exact htrim rfl
    obtain ⟨extra, hext⟩ := hpre
    unfold EnhancedTrie.insert
    rw [if_neg hs]
    unfold EnhancedTrie.navigate
    show ∃ nd,
      followPath (insertGo t.root (EnhancedTrie.processSentence s) (trimJs s) now)
        (EnhancedTrie.processSentence p) = some nd ∧ _
    rw [← hext, followPath_insertGo]
    exact ⟨_, rfl, findAllWords_insertGo_self extra _ (trimJs s) now⟩
  · intro t p1 p2 limit hproc
    unfold EnhancedTrie.autocomplete EnhancedTrie.navigate
    by_cases h1 : p1 = []
    · have h2 : p2 = [] := by
        rw [← processSentence_eq_nil, ← hproc, processSentence_eq_nil]
        exact h1
      rw [if_pos h1, if_pos h2]
    · have h2 : p2 ≠ [] := by
        intro he
        exact h1 (by
          rw [← processSentence_eq_nil, hproc, processSentence_eq_nil]
          exact he)
      rw [if_neg h1, if_neg h2, hproc]

/-- Witness for the round-trip claim: insert "The quick brown fox." and look
up the prefix "THE QUICK". -/
theorem insert_lookup_roundtrip_witness :
    trimJs "The quick brown fox.".toList ≠ [] ∧
    EnhancedTrie.processSentence "THE QUICK".toList
      <+: EnhancedTrie.processSentence "The quick brown fox.".toList ∧
    (∃ nd, (EnhancedTrie.emptyTrie.insert "The quick brown fox.".toList 1).navigate
        "THE QUICK".toList = some nd ∧
      ∃ cand ∈ nd.findAllWords, cand.text = trimJs "The quick brown fox.".toList) ∧
    (witnessTrie.autocomplete "AB".toList 10
      = witnessTrie.autocomplete "ab".toList 10) :=
  ⟨by decide, by decide,
    insert_lookup_roundtrip.1 EnhancedTrie.emptyTrie "The quick brown fox.".toList
      "THE QUICK".toList 1 (by decide) (by decide),
    insert_lookup_roundtrip.2 witnessTrie "AB".toList "ab".toList 10 (by decide)⟩

theorem isEndOfWord_mk (ch : List (Char × TrieNode)) (e : Bool) (t : Str)
    (f lu : Nat) : (TrieNode.mk ch e t f lu).isEndOfWord = e := rfl

theorem fullSentence_mk (ch : List (Char × TrieNode)) (e : Bool) (t : Str)
    (f lu : Nat) : (TrieNode.mk ch e t f lu).fullSentence = t := rfl

theorem frequency_mk (ch : List (Char × TrieNode)) (e : Bool) (t : Str)
    (f lu : Nat) : (TrieNode.mk ch e t f lu).frequency = f := rfl

theorem lastUsed_mk (ch : List (Char × TrieNode)) (e : Bool) (t : Str)
    (f lu : Nat) : (TrieNode.mk ch e t f lu).lastUsed = lu := rfl

theorem emptyNode_children : TrieNode.emptyNode.children = [] := rfl

theorem emptyNode_isEnd : TrieNode.emptyNode.isEndOfWord = false := rfl

theorem emptyNode_text : TrieNode.emptyNode.fullSentence = [] := rfl

theorem emptyNode_freq : TrieNode.emptyNode.frequency = 0 := rfl

theorem emptyNode_lu : TrieNode.emptyNode.lastUsed = 0 := rfl

theorem getChild_nil (c : Char) : getChild [] c = none := rfl

theorem getChild_cons (d : Char) (m : TrieNode) (rest : List (Char × TrieNode))
    (c : Char) :
    getChild ((d, m) :: rest) c = if d = c then some m else getChild rest c :=
  rfl

theorem setChild_nil (c : Char) (nd : TrieNode) :
    setChild [] c nd = [(c, nd)] := rfl

theorem setChild_cons (d : Char) (m : TrieNode) (rest : List (Char × TrieNode))
    (c : Char) (nd : TrieNode) :
    setChild ((d, m) :: rest) c nd
      = if d = c then (c, nd) :: rest else (d, m) :: setChild rest c nd := rfl

theorem findAllWordsList_nil : findAllWordsList [] = [] := rfl

theorem countNodesList_nil : countNodesList [] = 0 := rfl

theorem countTotalList_nil : countTotalList [] = 0 := rfl

theorem insert_twice_core :
    ∀ (key t1 t2 : Str) (n1 n2 : Nat),
      (insertGo (insertGo TrieNode.emptyNode key t1 n1) key t2 n2).findAllWords
        = [⟨t2, 2, n2⟩] ∧
      (insertGo (insertGo TrieNode.emptyNode key t1 n1) key t2 n2).countTotal
        = (insertGo TrieNode.emptyNode key t1 n1).countTotal ∧
      (insertGo (insertGo TrieNode.emptyNode key t1 n1) key t2 n2).countNodes
        = 1 := by
  intro key
  induction key with
  | nil =>
      intro t1 t2 n1 n2
      refine ⟨?_, ?_, ?_⟩
      · rw [insertGo_nil, insertGo_nil, findAllWords_mk]
        simp [children_mk, frequency_mk, emptyNode_children, emptyNode_freq,
          findAllWordsList_nil]
      · rfl
      · rfl
  | cons c key ih =>
      intro t1 t2 n1 n2
      obtain ⟨ihF, ihT, ihN⟩ := ih t1 t2 n1 n2
      have hfirst : insertGo TrieNode.emptyNode (c :: key) t1 n1
          = TrieNode.mk [(c, insertGo TrieNode.emptyNode key t1 n1)]
              false [] 0 0 := by
        rw [insertGo_cons]
        simp only [emptyNode_children, emptyNode_isEnd, emptyNode_text,
          emptyNode_freq, emptyNode_lu, getChild_nil, Option.getD_none,
          setChild_nil]
      have hstep : insertGo (insertGo TrieNode.emptyNode (c :: key) t1 n1)
          (c :: key) t2 n2
          = TrieNode.mk
              [(c, insertGo (insertGo TrieNode.emptyNode key t1 n1) key t2 n2)]
              false [] 0 0 := by
        rw [hfirst, insertGo_cons]
        simp only [children_mk, isEndOfWord_mk, fullSentence_mk, frequency_mk,
          lastUsed_mk, getChild_cons, setChild_cons, eq_self_iff_true, if_true,
          Option.getD_some]
      refine ⟨?_, ?_, ?_⟩
      · rw [hstep, findAllWords_mk, findAllWordsList_cons, ihF,
          findAllWordsList_nil]
        rfl
      · rw [hstep, hfirst, countTotal_mk, countTotal_mk, countTotalList_cons,
          countTotalList_cons, ihT]
      · rw [hstep, countNodes_mk, countNodesList_cons, ihN,
          countNodesList_nil]
        rfl

/-- C5: inserting the same non-empty sentence twice into an empty trie
yields exactly one stored terminal entry, whose frequency is 2 and whose
text is the trimmed sentence, and the second insertion creates no new nodes
(the node count is unchanged). -/
theorem insert_twice_accumulates (s : Str) (n1 n2 : Nat) (hs : s ≠ []) :
    ((EnhancedTrie.emptyTrie.insert s n1).insert s n2).root.findAllWords
      = [⟨trimJs s, 2, n2⟩] ∧
    ((EnhancedTrie.emptyTrie.insert s n1).insert s n2).countUniqueEntries = 1 ∧
    ((EnhancedTrie.emptyTrie.insert s n1).insert s n2).countTotalNodes
      = (EnhancedTrie.emptyTrie.insert s n1).countTotalNodes := by
  unfold EnhancedTrie.insert
  rw [if_neg hs, if_neg hs]
  unfold EnhancedTrie.countUniqueEntries EnhancedTrie.countTotalNodes
  obtain ⟨hF, hT, hN⟩ := insert_twice_core (EnhancedTrie.processSentence s)
    (trimJs s) (trimJs s) n1 n2
  exact ⟨hF, hN, hT⟩

/-- Witness for the double-insert claim at the sentence "ab ". -/
theorem insert_twice_accumulates_witness :
    (['a', 'b', ' '] : Str) ≠ [] ∧
    ((EnhancedTrie.emptyTrie.insert ['a', 'b', ' '] 1).insert
        ['a', 'b', ' '] 2).root.findAllWords
      = [⟨trimJs ['a', 'b', ' '], 2, 2⟩] :=
  ⟨by decide,
    (insert_twice_accumulates ['a', 'b', ' '] 1 2 (by decide)).1⟩

/-- C7: a sentence that is empty or whitespace-only after trimming makes
the orchestrator's insert return the failure indicator `false` and leave
the whole state (trie nodes and `totalInsertions`) unchanged, and an empty
query makes autocomplete return the empty list, at the orchestrator and at
the trie level; none of these paths signals an error. -/
theorem empty_input_edge_cases :
    (∀ (st : FuzzyTrieAutocomplete) (s : Str) (now : Nat), trimJs s = [] →
      st.insert s now = (st, false)) ∧
    (∀ (st : FuzzyTrieAutocomplete) (limit : Nat),
      st.autocomplete [] limit = []) ∧
    (∀ (t : EnhancedTrie) (limit : Nat), t.autocomplete [] limit = []) := by
  refine ⟨?_, ?_, ?_⟩
  · intro st s now htrim
    unfold FuzzyTrieAutocomplete.insert
    rw [if_neg]
    intro ⟨h1, h2⟩
    exact h2 htrim
  · intro st limit
    unfold FuzzyTrieAutocomplete.autocomplete
    rw [if_pos rfl]
  · intro t limit
    unfold EnhancedTrie.autocomplete
    rw [if_pos rfl]

/-- Witness for the empty-input claim at the whitespace-only sentence " ". -/
theorem empty_input_edge_cases_witness :
    trimJs [' '] = [] ∧
    witnessState.insert [' '] 7 = (witnessState, false) :=
  ⟨by decide, empty_input_edge_cases.1 witnessState [' '] 7 (by decide)⟩

/-! ## recordSelection lemmas -/

theorem recSelGo_nil (nd : TrieNode) (s : Str) (now : Nat) :
    recSelGo nd [] s now
      = if nd.isEndOfWord && nd.fullSentence = s then
          .mk nd.children nd.isEndOfWord nd.fullSentence (nd.frequency + 1) now
        else nd := rfl

theorem recSelGo_cons (nd : TrieNode) (c : Char) (key s : Str) (now : Nat) :
    recSelGo nd (c :: key) s now
      = match getChild nd.children c with
        | none => nd
        | some child =>
            .mk (setChild nd.children c (recSelGo child key s now))
              nd.isEndOfWord nd.fullSentence nd.frequency nd.lastUsed := rfl

theorem setChild_getChild_id :
    ∀ (ch : List (Char × TrieNode)) (c : Char) (m : TrieNode),
      getChild ch c = some m → setChild ch c m = ch := by
  intro ch
  induction ch with
  | nil => intro c m h; exact absurd h (by rw [getChild_nil]; simp)
  | cons p rest ih =>
      obtain ⟨d, n⟩ := p
      intro c m h
      rw [getChild_cons] at h
      rw [setChild_cons]
      by_cases hdc : d = c
      · rw [if_pos hdc] at h
        rw [if_pos hdc]
        subst hdc
        simp at h
        rw [h]
      · rw [if_neg hdc] at h
        rw [if_neg hdc, ih c m h]

theorem recSelGo_noop :
    ∀ (key : Str) (nd : TrieNode) (s : Str) (now : Nat),
      (¬ ∃ m, followPath nd key = some m ∧ m.isEndOfWord = true
        ∧ m.fullSentence = s) →
      recSelGo nd key s now = nd := by
  intro key
  induction key with
  | nil =>
      intro nd s now hcond
      rw [recSelGo_nil, if_neg]
      simp only [Bool.and_eq_true, decide_eq_true_eq]
      intro ⟨h1, h2⟩
      exact hcond ⟨nd, rfl, h1, h2⟩
  | cons c key ih =>
      intro nd s now hcond
      rw [recSelGo_cons]
      cases hg : getChild nd.children c with
      | none => rfl
      | some child =>
          have hsub : recSelGo child key s now = child := by
            apply ih
            intro ⟨m, hm, h1, h2⟩
            apply hcond
            refine ⟨m, ?_, h1, h2⟩
            rw [followPath_cons, hg]
            exact hm
          show TrieNode.mk (setChild nd.children c (recSelGo child key s now))
            nd.isEndOfWord nd.fullSentence nd.frequency nd.lastUsed = nd
          rw [hsub, setChild_getChild_id nd.children c child hg]
          cases nd
          rfl

theorem recSelGo_found :
    ∀ (key : Str) (nd m : TrieNode) (s : Str) (now : Nat),
      followPath nd key = some m → m.isEndOfWord = true → m.fullSentence = s →
      followPath (recSelGo nd key s now) key
        = some (.mk m.children m.isEndOfWord m.fullSentence
            (m.frequency + 1) now) := by
  intro key
  induction key with
  | nil =>
      intro nd m s now hm h1 h2
      have : nd = m := by
        have : some nd = some m := hm
        exact Option.some.inj this
      subst this
      rw [recSelGo_nil, if_pos]
      · rfl
      · simp only [Bool.and_eq_true, decide_eq_true_eq]
        exact ⟨h1, h2⟩
  | cons c key ih =>
      intro nd m s now hm h1 h2
      rw [followPath_cons] at hm
      cases hg : getChild nd.children c with
      | none => rw [hg] at hm; exact absurd hm (by simp)
      | some child =>
          rw [hg] at hm
          rw [recSelGo_cons, hg, followPath_cons, children_mk,
            getChild_setChild_same]
          exact ih child m s now hm h1 h2

theorem recSelGo_fields_other :
    ∀ (key : Str) (nd : TrieNode) (s : Str) (now : Nat) (kk : Str),
      kk ≠ key →
      (followPath (recSelGo nd key s now) kk).map TrieNode.fields
        = (followPath nd kk).map TrieNode.fields := by
  intro key
  induction key with
  | nil =>
      intro nd s now kk hne
      cases kk with
      | nil => exact absurd rfl hne
      | cons d kk =>
          rw [recSelGo_nil]
          by_cases hcond : (nd.isEndOfWord && nd.fullSentence = s) = true
          · rw [if_pos hcond]
            rw [followPath_cons, followPath_cons, children_mk]
          · rw [if_neg hcond]
  | cons c key ih =>
      intro nd s now kk hne
      rw [recSelGo_cons]
      cases hg : getChild nd.children c with
      | none => rfl
      | some child =>
          cases kk with
          | nil => rfl
          | cons d kk =>
              rw [followPath_cons, followPath_cons, children_mk]
              by_cases hdc : d = c
              · subst hdc
                rw [getChild_setChild_same, hg]
                have hkk : kk ≠ key := by
                  intro he
                  exact hne (by rw [he])
                exact ih child s now kk hkk
              · rw [getChild_setChild_other nd.children c d _ hdc]

theorem recSelGo_isEnd (key : Str) (nd : TrieNode) (s : Str) (now : Nat) :
    (recSelGo nd key s now).isEndOfWord = nd.isEndOfWord := by
  cases key with
  | nil =>
      rw [recSelGo_nil]
      by_cases hcond : (nd.isEndOfWord && nd.fullSentence = s) = true
      · rw [if_pos hcond, isEndOfWord_mk]
      · rw [if_neg hcond]
  | cons c key =>
      rw [recSelGo_cons]
      cases hg : getChild nd.children c with
      | none => rfl
      | some child => rw [isEndOfWord_mk]

theorem insertGo_isEnd_cons (nd : TrieNode) (c : Char) (key text : Str)
    (now : Nat) :
    (insertGo nd (c :: key) text now).isEndOfWord = nd.isEndOfWord := by
  rw [insertGo_cons, isEndOfWord_mk]

theorem reachable_root_not_terminal :
    ∀ t : EnhancedTrie, Reachable t → t.root.isEndOfWord = false := by
  intro t h
  induction h with
  | empty => rfl
  | @insert t s now _ ih =>
      unfold EnhancedTrie.insert
      by_cases hs : s = []
      · rw [if_pos hs]; exact ih
      · rw [if_neg hs]
        show (insertGo t.root (EnhancedTrie.processSentence s)
          (trimJs s) now).isEndOfWord = false
        cases hps : EnhancedTrie.processSentence s with
        | nil => exact absurd ((processSentence_eq_nil s).mp hps) hs
        | cons c key => rw [insertGo_isEnd_cons, ih]
  | @select t s now _ ih =>
      unfold EnhancedTrie.recordSelection
      by_cases hs : s = []
      · rw [if_pos hs]; exact ih
      · rw [if_neg hs]
        show (recSelGo t.root (EnhancedTrie.processSentence s) s now).isEndOfWord
          = false
        rw [recSelGo_isEnd, ih]

/-- C6: `recordSelection` increments the frequency and refreshes the
recency of a node exactly when the normalized path exists, the reached node
is terminal, and its stored text equals the given sentence; in every other
case (path missing, non-terminal node, or stored text differing) the trie
is unchanged, and no error is signalled.  The first conjunct shows the root
of every reachable trie is non-terminal, which rules out the only state
where the early return for the empty sentence could differ from the
condition. -/
theorem recordSelection_characterization :
    (∀ t : EnhancedTrie, Reachable t → t.root.isEndOfWord = false) ∧
    (∀ (t : EnhancedTrie) (s : Str) (now : Nat),
      t.root.isEndOfWord = false →
      ((¬ (∃ m, followPath t.root (EnhancedTrie.processSentence s) = some m ∧
            m.isEndOfWord = true ∧ m.fullSentence = s) →
        t.recordSelection s now = t) ∧
      (∀ m : TrieNode,
        followPath t.root (EnhancedTrie.processSentence s) = some m →
        m.isEndOfWord = true → m.fullSentence = s →
        followPath (t.recordSelection s now).root
            (EnhancedTrie.processSentence s)
          = some (.mk m.children m.isEndOfWord m.fullSentence
              (m.frequency + 1) now) ∧
        (t.recordSelection s now).totalInsertions = t.totalInsertions ∧
        ∀ kk : Str, kk ≠ EnhancedTrie.processSentence s →
          (followPath (t.recordSelection s now).root kk).map TrieNode.fields
            = (followPath t.root kk).map TrieNode.fields))) := by
  refine ⟨reachable_root_not_terminal, ?_⟩
  intro t s now hroot
  constructor
  · intro hcond
    unfold EnhancedTrie.recordSelection
    by_cases hs : s = []
    · rw [if_pos hs]
    · rw [if_neg hs]
      rw [recSelGo_noop (EnhancedTrie.processSentence s) t.root s now hcond]
  · intro m hm h1 h2
    have hs : s ≠ [] := by
      intro he
      subst he
      have hps : EnhancedTrie.processSentence ([] : Str) = [] := rfl
      rw [hps] at hm
      have : t.root = m := Option.some.inj hm
      rw [this] at hroot
      rw [hroot] at h1
      exact absurd h1 (by simp)
    unfold EnhancedTrie.recordSelection
    rw [if_neg hs]
    refine ⟨?_, rfl, ?_⟩
    · exact recSelGo_found (EnhancedTrie.processSentence s) t.root m s now hm h1 h2
    · intro kk hkk
      exact recSelGo_fields_other (EnhancedTrie.processSentence s) t.root s now kk hkk

/-- Witness for the recordSelection claim: selecting the stored sentence
"aB" in a trie that contains it bumps its frequency from 1 to 2. -/
theorem recordSelection_characterization_witness :
    witnessTrieSel.root.isEndOfWord = false ∧
    followPath witnessTrieSel.root (EnhancedTrie.processSentence ['a', 'B'])
      = some witnessNodeSel ∧
    followPath ((witnessTrieSel.recordSelection ['a', 'B'] 9)).root
        (EnhancedTrie.processSentence ['a', 'B'])
      = some (.mk witnessNodeSel.children witnessNodeSel.isEndOfWord
          witnessNodeSel.fullSentence (witnessNodeSel.frequency + 1) 9) :=
  ⟨by decide, rfl,
    ((recordSelection_characterization.2 witnessTrieSel ['a', 'B'] 9
      (by decide)).2 witnessNodeSel rfl (by decide) (by decide)).1⟩

/-! ## Frequency invariant lemmas -/

theorem mem_findAllWordsList_setChild :
    ∀ (ch : List (Char × TrieNode)) (c : Char) (X : TrieNode)
      (cand : Suggestion),
      cand ∈ findAllWordsList (setChild ch c X) →
      cand ∈ findAllWordsList ch ∨ cand ∈ X.findAllWords := by
  intro ch
  induction ch with
  | nil =>
      intro c X cand h
      rw [setChild_nil, findAllWordsList_cons, findAllWordsList_nil] at h
      simp at h
      exact Or.inr h
  | cons p rest ih =>
      obtain ⟨d, m⟩ := p
      intro c X cand h
      rw [setChild_cons] at h
      by_cases hdc : d = c
      · rw [if_pos hdc, findAllWordsList_cons] at h
        rcases List.mem_append.mp h with h | h
        · exact Or.inr h
        · exact Or.inl (by rw [findAllWordsList_cons]; exact List.mem_append_right _ h)
      · rw [if_neg hdc, findAllWordsList_cons] at h
        rcases List.mem_append.mp h with h | h
        · exact Or.inl (by rw [findAllWordsList_cons]; exact List.mem_append_left _ h)
        · rcases ih c X cand h with h2 | h2
          · exact Or.inl (by rw [findAllWordsList_cons]; exact List.mem_append_right _ h2)
          · exact Or.inr h2

theorem findAllWords_getChild_subset :
    ∀ (ch : List (Char × TrieNode)) (c : Char) (child : TrieNode),
      getChild ch c = some child →
      ∀ cand ∈ child.findAllWords, cand ∈ findAllWordsList ch := by
  intro ch
  induction ch with
  | nil => intro c child h; exact absurd h (by rw [getChild_nil]; simp)
  | cons p rest ih =>
      obtain ⟨d, m⟩ := p
      intro c child h cand hc
      rw [getChild_cons] at h
      rw [findAllWordsList_cons]
      by_cases hdc : d = c
      · rw [if_pos hdc] at h
        have : m = child := Option.some.inj h
        subst this
        exact List.mem_append_left _ hc
      · rw [if_neg hdc] at h
        exact List.mem_append_right _ (ih c child h cand hc)

theorem findAllWords_insertGo_freq :
    ∀ (key : Str) (nd : TrieNode) (text : Str) (now : Nat) (cand : Suggestion),
      cand ∈ (insertGo nd key text now).findAllWords →
      1 ≤ cand.frequency ∨ cand ∈ nd.findAllWords := by
  intro key
  induction key with
  | nil =>
      intro nd text now cand h
      rw [insertGo_nil, findAllWords_mk] at h
      rcases List.mem_append.mp h with h | h
      · simp at h
        rw [h]
        exact Or.inl (by simp)
      · cases nd with
      | mk ch e t f lu =>
          rw [findAllWords_mk]
          exact Or.inr (List.mem_append_right _ h)
  | cons c key ih =>
      intro nd text now cand h
      rw [insertGo_cons, findAllWords_mk] at h
      rcases List.mem_append.mp h with h | h
      · cases nd with
      | mk ch e t f lu =>
          rw [findAllWords_mk]
          exact Or.inr (List.mem_append_left _ h)
      · rcases mem_findAllWordsList_setChild _ c _ cand h with h2 | h2
        · cases nd with
        | mk ch e t f lu =>
            rw [findAllWords_mk]
            exact Or.inr (List.mem_append_right _ h2)
        · rcases ih _ text now cand h2 with h3 | h3
          · exact Or.inl h3
          · cases hg : getChild nd.children c with
            | none =>
                rw [hg] at h3
                simp only [Option.getD_none] at h3
                rw [show TrieNode.emptyNode.findAllWords = [] from rfl] at h3
                exact absurd h3 (by simp)
            | some child =>
                rw [hg] at h3
                simp only [Option.getD_some] at h3
                cases nd with
                | mk ch e t f lu =>
                    rw [findAllWords_mk]
                    refine Or.inr (List.mem_append_right _ ?_)
                    exact findAllWords_getChild_subset ch c child hg cand h3

theorem findAllWords_recSelGo_freq :
    ∀ (key : Str) (nd : TrieNode) (s : Str) (now : Nat) (cand : Suggestion),
      cand ∈ (recSelGo nd key s now).findAllWords →
      1 ≤ cand.frequency ∨ cand ∈ nd.findAllWords := by
  intro key
  induction key with
  | nil =>
      intro nd s now cand h
      rw [recSelGo_nil] at h
      by_cases hcond : (nd.isEndOfWord && nd.fullSentence = s) = true
      · rw [if_pos hcond, findAllWords_mk] at h
        rcases List.mem_append.mp h with h | h
        · have hEnd : nd.isEndOfWord = true := by
            rw [Bool.and_eq_true] at hcond
            exact hcond.1
          rw [hEnd] at h
          simp at h
          exact Or.inl (by rw [h]; simp)
        · cases nd with
        | mk ch e t f lu =>
            rw [findAllWords_mk]
            exact Or.inr (List.mem_append_right _ h)
      · rw [if_neg hcond] at h
        exact Or.inr h
  | cons c key ih =>
      intro nd s now cand h
      rw [recSelGo_cons] at h
      cases hg : getChild nd.children c with
      | none => rw [hg] at h; exact Or.inr h
      | some child =>
          rw [hg] at h
          rw [findAllWords_mk] at h
          rcases List.mem_append.mp h with h | h
          · cases nd with
          | mk ch e t f lu =>
              rw [findAllWords_mk]
              exact Or.inr (List.mem_append_left _ h)
          · rcases mem_findAllWordsList_setChild _ c _ cand h with h2 | h2
            · cases nd with
            | mk ch e t f lu =>
                rw [findAllWords_mk]
                exact Or.inr (List.mem_append_right _ h2)
            · rcases ih child s now cand h2 with h3 | h3
              · exact Or.inl h3
              · cases nd with
              | mk ch e t f lu =>
                  rw [findAllWords_mk]
                  refine Or.inr (List.mem_append_right _ ?_)
                  exact findAllWords_getChild_subset ch c child hg cand h3

theorem fields_frequency (nd : TrieNode) : nd.fields.2.2.1 = nd.frequency := rfl

theorem followPath_insertGo_mono :
    ∀ (kk : Str) (nd : TrieNode) (key text : Str) (now : Nat) (m : TrieNode),
      followPath nd kk = some m →
      ∃ m2, followPath (insertGo nd key text now) kk = some m2 ∧
        m.frequency ≤ m2.frequency := by
  intro kk
  induction kk with
  | nil =>
      intro nd key text now m hm
      have hnd : nd = m := Option.some.inj hm
      subst hnd
      cases key with
      | nil =>
          refine ⟨insertGo nd [] text now, rfl, ?_⟩
          rw [insertGo_nil, frequency_mk]
          omega
      | cons c key =>
          refine ⟨insertGo nd (c :: key) text now, rfl, ?_⟩
          rw [insertGo_cons, frequency_mk]
  | cons c kk ih =>
      intro nd key text now m hm
      rw [followPath_cons] at hm
      cases hg : getChild nd.children c with
      | none => rw [hg] at hm; exact absurd hm (by simp)
      | some child =>
          rw [hg] at hm
          cases key with
          | nil =>
              refine ⟨m, ?_, le_rfl⟩
              rw [insertGo_nil, followPath_cons, children_mk, hg]
              exact hm
          | cons d key =>
              by_cases hcd : c = d
              · subst hcd
                obtain ⟨m2, hm2, hle⟩ :=
                  ih ((getChild nd.children c).getD TrieNode.emptyNode) key text
                    now m (by rw [hg]; exact hm)
                refine ⟨m2, ?_, hle⟩
                rw [insertGo_cons, followPath_cons, children_mk,
                  getChild_setChild_same]
                exact hm2
              · refine ⟨m, ?_, le_rfl⟩
                rw [insertGo_cons, followPath_cons, children_mk,
                  getChild_setChild_other nd.children d c _ hcd, hg]
                exact hm

theorem followPath_recSelGo_mono (kk key : Str) (nd : TrieNode) (s : Str)
    (now : Nat) (m : TrieNode) (hm : followPath nd kk = some m) :
    ∃ m2, followPath (recSelGo nd key s now) kk = some m2 ∧
      m.frequency ≤ m2.frequency := by
  by_cases hkey : kk = key
  · subst hkey
    by_cases hcond : ∃ mm, followPath nd kk = some mm ∧ mm.isEndOfWord = true
        ∧ mm.fullSentence = s
    · obtain ⟨mm, hmm, h1, h2⟩ := hcond
      have heq : mm = m := by
        rw [hm] at hmm
        exact (Option.some.inj hmm).symm
      subst heq
      refine ⟨_, recSelGo_found kk nd mm s now hmm h1 h2, ?_⟩
      rw [frequency_mk]
      omega
    · rw [recSelGo_noop kk nd s now hcond]
      exact ⟨m, hm, le_rfl⟩
  · have hf := recSelGo_fields_other key nd s now kk hkey
    rw [hm] at hf
    cases hfp : followPath (recSelGo nd key s now) kk with
    | none =>
        rw [hfp] at hf
        exact absurd (show (none : Option (Bool × Str × Nat × Nat))
          = some (TrieNode.fields m) from hf) (by simp)
    | some m2 =>
        rw [hfp] at hf
        refine ⟨m2, rfl, ?_⟩
        have hinj : TrieNode.fields m2 = TrieNode.fields m :=
          Option.some.inj (show some (TrieNode.fields m2)
            = some (TrieNode.fields m) from hf)
        have hfr : m2.frequency = m.frequency := by
          have := congrArg (fun p => p.2.2.1) hinj
          simpa [TrieNode.fields] using this
        omega

/-- C9: in every trie state reachable from the empty trie by inserts and
selections, every terminal entry has frequency at least 1
(`findAllWords` collects exactly the terminal nodes with their
frequencies), and neither `insert` nor `recordSelection` ever decreases
the frequency of any existing node. -/
theorem frequency_invariant :
    (∀ t : EnhancedTrie, Reachable t →
      ∀ cand ∈ t.root.findAllWords, 1 ≤ cand.frequency) ∧
    (∀ (t : EnhancedTrie) (s : Str) (now : Nat) (kk : Str) (m : TrieNode),
      followPath t.root kk = some m →
      ∃ m2, followPath (t.insert s now).root kk = some m2 ∧
        m.frequency ≤ m2.frequency) ∧
    (∀ (t : EnhancedTrie) (s : Str) (now : Nat) (kk : Str) (m : TrieNode),
      followPath t.root kk = some m →
      ∃ m2, followPath (t.recordSelection s now).root kk = some m2 ∧
        m.frequency ≤ m2.frequency) := by
  refine ⟨?_, ?_, ?_⟩
  · intro t ht
    induction ht with
    | empty =>
        intro cand h
        rw [show EnhancedTrie.emptyTrie.root.findAllWords = [] from rfl] at h
        exact absurd h (by simp)
    | @insert t s now _ ih =>
        intro cand h
        unfold EnhancedTrie.insert at h
        by_cases hs : s = []
        · rw [if_pos hs] at h
          exact ih cand h
        · rw [if_neg hs] at h
          rcases findAllWords_insertGo_freq _ _ _ _ cand h with h2 | h2
          · exact h2
          · exact ih cand h2
    | @select t s now _ ih =>
        intro cand h
        unfold EnhancedTrie.recordSelection at h
        by_cases hs : s = []
        · rw [if_pos hs] at h
          exact ih cand h
        · rw [if_neg hs] at h
          rcases findAllWords_recSelGo_freq _ _ _ _ cand h with h2 | h2
          · exact h2
          · exact ih cand h2
  · intro t s now kk m hm
    unfold EnhancedTrie.insert
    by_cases hs : s = []
    · rw [if_pos hs]
      exact ⟨m, hm, le_rfl⟩
    · rw [if_neg hs]
      exact followPath_insertGo_mono kk t.root _ _ now m hm
  · intro t s now kk m hm
    unfold EnhancedTrie.recordSelection
    by_cases hs : s = []
    · rw [if_pos hs]
      exact ⟨m, hm, le_rfl⟩
    · rw [if_neg hs]
      exact followPath_recSelGo_mono kk _ t.root s now m hm

theorem reachable_witnessTrie : Reachable witnessTrie :=
  Reachable.insert _ _ (Reachable.insert _ _ (Reachable.insert _ _
    (Reachable.insert _ _ (Reachable.insert _ _ (Reachable.insert _ _
      Reachable.empty)))))

/-- Witness for the frequency invariant at the concrete reachable trie
`witnessTrie`, whose terminal entry for "ab" has frequency 5. -/
theorem frequency_invariant_witness :
    (⟨['a', 'b'], 5, 5⟩ : Suggestion) ∈ witnessTrie.root.findAllWords ∧
    1 ≤ (⟨['a', 'b'], 5, 5⟩ : Suggestion).frequency :=
  ⟨by decide,
    frequency_invariant.1 witnessTrie reachable_witnessTrie ⟨['a', 'b'], 5, 5⟩
      (by decide)⟩

/-! ## Read-only autocomplete (frame property) -/

theorem findAllWordsST_spec (nd : TrieNode) (st : EnhancedTrie) :
    nd.findAllWordsST st = (nd.findAllWords, st) := by
  refine TrieNode.findAllWordsST.induct
    (fun nd st => nd.findAllWordsST st = (nd.findAllWords, st))
    (fun ch st => findAllWordsListST ch st = (findAllWordsList ch, st))
    ?_ ?_ ?_ nd st
  · intro ch isEnd text freq lu st ih
    show ((if isEnd then [⟨text, freq, lu⟩] else [])
        ++ (findAllWordsListST ch st).1, (findAllWordsListST ch st).2)
      = ((TrieNode.mk ch isEnd text freq lu).findAllWords, st)
    rw [ih, findAllWords_mk]
  · intro st; rfl
  · intro c child rest st r1 ih1 ih2
    have hr2 : findAllWordsListST rest (child.findAllWordsST st).2
        = (findAllWordsList rest, (child.findAllWordsST st).2) := ih2
    show ((child.findAllWordsST st).1
          ++ (findAllWordsListST rest (child.findAllWordsST st).2).1,
        (findAllWordsListST rest (child.findAllWordsST st).2).2)
      = (findAllWordsList ((c, child) :: rest), st)
    rw [hr2, ih1, findAllWordsList_cons]

theorem walkST_cons (c : Char) (key : Str) (nd : TrieNode) (st : EnhancedTrie) :
    walkST (c :: key) nd st
      = match getChild nd.children c with
        | none => (none, st)
        | some child => walkST key child st := rfl

theorem walkST_spec :
    ∀ (key : Str) (nd : TrieNode) (st : EnhancedTrie),
      walkST key nd st = (followPath nd key, st) := by
  intro key
  induction key with
  | nil => intro nd st; rfl
  | cons c key ih =>
      intro nd st
      rw [walkST_cons, followPath_cons]
      cases hg : getChild nd.children c with
      | none => rfl
      | some child => exact ih child st

theorem autocompleteST_spec (t : EnhancedTrie) (pfx : Str) (limit : Nat) :
    t.autocompleteST pfx limit = (t.autocomplete pfx limit, t) := by
  unfold EnhancedTrie.autocompleteST EnhancedTrie.autocomplete
    EnhancedTrie.navigate
  by_cases hp : pfx = []
  · rw [if_pos hp, if_pos hp]
  · rw [if_neg hp, if_neg hp]
    simp only [walkST_spec, findAllWordsST_spec]
    cases followPath t.root (EnhancedTrie.processSentence pfx) <;> rfl

theorem autocompleteST_fold_spec (limit : Nat) :
    ∀ (vs : List Str) (acc : List SugF × FuzzyTrieAutocomplete),
      vs.foldl
        (fun (acc : List SugF × FuzzyTrieAutocomplete) v =>
          let r := acc.2.trie.autocompleteST v limit
          let st2 := { acc.2 with trie := r.2 }
          (acc.1 ++ r.1.map fun s => SugF.mk s (st2.trie.getFrequency s) v, st2))
        acc
      = (acc.1 ++ vs.flatMap fun v =>
          (acc.2.trie.autocomplete v limit).map fun s =>
            SugF.mk s (acc.2.trie.getFrequency s) v, acc.2) := by
  intro vs
  induction vs with
  | nil => intro acc; simp
  | cons v vs ih =>
      intro acc
      rw [List.foldl_cons, ih]
      simp only [autocompleteST_spec, List.flatMap_cons, List.append_assoc]

/-- C10: autocomplete is read-only.  Rendering the whole query pipeline in
state-passing style (every step receives and returns the state, in the
statement order of the source), the final state always equals the initial
state, and the computed result is the same as the direct function, at the
orchestrator level and at the trie level.  In particular no node's
children, terminal flag, stored text, frequency or recency, and no
`totalInsertions` counter, is changed by a query. -/
theorem autocomplete_read_only :
    (∀ (st : FuzzyTrieAutocomplete) (query : Str) (limit : Nat),
      st.autocompleteST query limit = (st.autocomplete query limit, st)) ∧
    (∀ (t : EnhancedTrie) (pfx : Str) (limit : Nat),
      t.autocompleteST pfx limit = (t.autocomplete pfx limit, t)) := by
  refine ⟨?_, autocompleteST_spec⟩
  intro st query limit
  unfold FuzzyTrieAutocomplete.autocompleteST FuzzyTrieAutocomplete.autocomplete
  by_cases hq : query = []
  · rw [if_pos hq, if_pos hq]
  · rw [if_neg hq, if_neg hq]
    simp only [autocompleteST_fold_spec]
    rfl
